import Mathlib

/-!
Verification of the MP3 Multiple-LSB steganography codec (`src/stegano/lsb.py`,
`src/stegano/vigenere.py`).

Bytes are modelled as `Nat` values below 256, byte strings as `List Nat`, and
keys as their UTF-8 byte sequences (`List Nat`).  Fallible code returns
`Except`/`Option`.  The two stdlib dependencies that cannot be shallowly
embedded are modelled explicitly and documented at their definitions:
`randrange` (the seeded start-offset generator) and the `jsonOK` parameter
(success of `json.loads`).  All recursion is structural (fuel-based loops with
provably sufficient fuel), so every definition is executable.
-/

namespace Stegano

/-- Mask used throughout: `x &&& 0xFF` ≡ `x % 256` for `x : Nat`. -/
def byteAdd (b k : Nat) : Nat := (b + k) % 256

/-- Python `(b - k) & 0xFF` on possibly negative intermediate values:
mathematical mod 256 of the integer difference. -/
def byteSub (b k : Nat) : Nat := (((b : Int) - (k : Int)) % 256).toNat

/-- `_vigenere256_encrypt` (lsb.py lines 14-21): empty key is the identity;
otherwise `out[i] = (data[i] + kb[i % len kb]) & 0xFF`. -/
def vigenere256_encrypt (data kb : List Nat) : List Nat :=
  if kb = [] then data
  else data.mapIdx fun i b => byteAdd b (kb.getD (i % kb.length) 0)

/-- The pure byte-level inverse used by both `ExtendedVigenereCipher.decrypt`
(vigenere.py lines 43-68) and the extractor's chunk loop:
`out[i] = (data[i] - kb[i % len kb]) mod 256`. -/
def vigenere256_decrypt (data kb : List Nat) : List Nat :=
  data.mapIdx fun i b => byteSub b (kb.getD (i % kb.length) 0)

/-- One chunk of the extractor's decryption (lsb.py lines 357-359):
`dec[i] = (raw[i] - kb[(written + i) % km]) & 0xFF`, indexing the key by the
payload's absolute byte offset `written + i`. -/
def decryptChunkAt (kb : List Nat) (written : Nat) (chunk : List Nat) : List Nat :=
  chunk.mapIdx fun i b => byteSub b (kb.getD ((written + i) % kb.length) 0)

/-- Chunk-by-chunk decryption of a partitioned payload, threading the
absolute offset `written` exactly as the extractor's loop does. -/
def decryptChunksFrom (kb : List Nat) : Nat → List (List Nat) → List Nat
  | _, [] => []
  | written, c :: cs => decryptChunkAt kb written c ++ decryptChunksFrom kb (written + c.length) cs

namespace ExtendedVigenereCipher

/-- `ExtendedVigenereCipher.encrypt` (vigenere.py lines 16-41): raises
`ValueError` on an empty key. -/
def encrypt (data kb : List Nat) : Except String (List Nat) :=
  if kb = [] then .error "Key tidak boleh kosong"
  else .ok (data.mapIdx fun i b => byteAdd b (kb.getD (i % kb.length) 0))

/-- `ExtendedVigenereCipher.decrypt` (vigenere.py lines 43-68): raises
`ValueError` on an empty key. -/
def decrypt (data kb : List Nat) : Except String (List Nat) :=
  if kb = [] then .error "Key tidak boleh kosong"
  else .ok (vigenere256_decrypt data kb)

end ExtendedVigenereCipher

/-- Models Python's `random.Random(seed).randrange(0, total)`
(`_key_to_seed` feeds `seed = sha256(key)[:4]` into a Mersenne-Twister
generator).  Neither SHA-256 nor MT19937 is part of this repository; the
claims depend only on the choice being a deterministic function of
`(seed, total)` lying in `[0, total)`, which `seed % total` realises. -/
def randrange (seed total : Nat) : Nat := seed % total

/-- `_bytes_to_bits` (lsb.py lines 31-32): MSB-first bit list. -/
def bytesToBits (b : List Nat) : List Nat :=
  (List.range (b.length * 8)).map fun i => (b.getD (i / 8) 0 >>> (7 - i % 8)) &&& 1

/-- The MSB-first list of the low `w` bits of `v`. -/
def natBits : Nat → Nat → List Nat
  | 0, _ => []
  | w + 1, v => ((v >>> w) &&& 1) :: natBits w v

/-- Value of an MSB-first bit group, exactly as accumulated by the embedder
(lsb.py lines 280-282): `v = (v << 1) | (bit & 1)`. -/
def groupVal (g : List Nat) : Nat :=
  g.foldl (fun v bit => (v <<< 1) ||| (bit &&& 1)) 0

/-- Regroup a bit list into bytes (8 MSB-first bits each); an incomplete
trailing group yields no byte. -/
def bitsToBytes : List Nat → List Nat
  | b0 :: b1 :: b2 :: b3 :: b4 :: b5 :: b6 :: b7 :: rest =>
      groupVal [b0, b1, b2, b3, b4, b5, b6, b7] :: bitsToBytes rest
  | _ => []

/-- `n.to_bytes(4, "big")` for `n < 2^32`. -/
def be4 (n : Nat) : List Nat :=
  [(n >>> 24) &&& 0xFF, (n >>> 16) &&& 0xFF, (n >>> 8) &&& 0xFF, n &&& 0xFF]

/-- `int.from_bytes(b, "big")` on a 4-byte slice. -/
def fromBE4 (b : List Nat) : Nat :=
  (b.getD 0 0 <<< 24) ||| (b.getD 1 0 <<< 16) ||| (b.getD 2 0 <<< 8) ||| b.getD 3 0

/-! ### CRC-32 (zlib `crc32`) -/

/-- One polynomial-division step of the reflected CRC-32 polynomial. -/
def crc32Step (c : Nat) : Nat :=
  if c % 2 = 1 then (c >>> 1) ^^^ 0xEDB88320 else c >>> 1

/-- The CRC-32 table entry for index `b`: eight polynomial steps. -/
def crc32Entry (b : Nat) : Nat := crc32Step^[8] b

/-- Fold one data byte into the (inverted-domain) CRC register. -/
def crc32Byte (c b : Nat) : Nat := crc32Entry ((c ^^^ b) &&& 0xFF) ^^^ (c >>> 8)

/-- Fold a byte list into the (inverted-domain) CRC register. -/
def crc32Raw (c : Nat) (l : List Nat) : Nat := l.foldl crc32Byte c

/-- zlib `crc32(data, value)`: complement in and out of the raw register. -/
def crc32Incr (value : Nat) (data : List Nat) : Nat :=
  crc32Raw (value ^^^ 0xFFFFFFFF) data ^^^ 0xFFFFFFFF

/-- zlib `crc32(data)` with the default initial value 0. -/
def crc32 (data : List Nat) : Nat := crc32Incr 0 data

/-! ### MP3 frame scanning (lsb.py lines 36-128) -/

/-- MPEG audio version as decoded from the header version bits. -/
inductive MpegVersion | v1 | v2 | v2_5
  deriving DecidableEq

/-- `_BITRATE_TABLE` (kbps entries; `none` marks the invalid indices). -/
def bitrateTable : MpegVersion → List (Option Nat)
  | .v1 =>
      [none, some 32, some 40, some 48, some 56, some 64, some 80, some 96,
       some 112, some 128, some 160, some 192, some 224, some 256, some 320, none]
  | .v2 =>
      [none, some 8, some 16, some 24, some 32, some 40, some 48, some 56,
       some 64, some 80, some 96, some 112, some 128, some 144, some 160, none]
  | .v2_5 =>
      [none, some 8, some 16, some 24, some 32, some 40, some 48, some 56,
       some 64, some 80, some 96, some 112, some 128, some 144, some 160, none]

/-- `_SR_TABLE`. -/
def srTable : MpegVersion → List (Option Nat)
  | .v1 => [some 44100, some 48000, some 32000, none]
  | .v2 => [some 22050, some 24000, some 16000, none]
  | .v2_5 => [some 11025, some 12000, some 8000, none]

/-- The `{0x03: "1", 0x02: "2", 0x00: "2.5"}` lookup (lsb.py line 78). -/
def versionOfBits : Nat → Option MpegVersion
  | 0x03 => some .v1
  | 0x02 => some .v2
  | 0x00 => some .v2_5
  | _ => none

/-- `_read_synchsafe32` (lsb.py lines 49-55). -/
def readSynchsafe32 (b : List Nat) : Nat :=
  ((b.getD 0 0 &&& 0x7F) <<< 21) ||| ((b.getD 1 0 &&& 0x7F) <<< 14) |||
    ((b.getD 2 0 &&& 0x7F) <<< 7) ||| (b.getD 3 0 &&& 0x7F)

/-- `_skip_id3v2` (lsb.py lines 58-63). -/
def skipId3v2 (mp3 : List Nat) : Nat :=
  if 10 ≤ mp3.length ∧ mp3.take 3 = [0x49, 0x44, 0x33] then
    min (10 + readSynchsafe32 ((mp3.drop 6).take 4)) mp3.length
  else 0

/-- Result of `_parse_header_at`. -/
structure FrameHeader where
  frame_len : Nat
  side_len : Nat
  deriving DecidableEq

/-- `_parse_header_at` (lsb.py lines 66-108). -/
def parseHeaderAt (mp3 : List Nat) (off : Nat) : Option FrameHeader :=
  if off + 4 > mp3.length then none else
  let b1 := mp3.getD off 0
  let b2 := mp3.getD (off + 1) 0
  let b3 := mp3.getD (off + 2) 0
  let b4 := mp3.getD (off + 3) 0
  if b1 ≠ 0xFF ∨ (b2 &&& 0xE0) ≠ 0xE0 then none else
  let ver_bits := (b2 >>> 3) &&& 0x03
  let layer_bits := (b2 >>> 1) &&& 0x03
  if layer_bits ≠ 0x01 then none else
  if ver_bits = 0x01 then none else
  match versionOfBits ver_bits with
  | none => none
  | some version =>
    let bitrate_idx := (b3 >>> 4) &&& 0x0F
    let sr_idx := (b3 >>> 2) &&& 0x03
    let padding := (b3 >>> 1) &&& 0x01
    let channel_mode := (b4 >>> 6) &&& 0x03
    if bitrate_idx = 0 ∨ bitrate_idx = 0x0F then none else
    if sr_idx = 0x03 then none else
    match (bitrateTable version).getD bitrate_idx none,
          (srTable version).getD sr_idx none with
    | some br_kbps, some sr =>
      let coef := if version = .v1 then 144 else 72
      let frame_len := coef * (br_kbps * 1000) / sr + padding
      if frame_len < 24 then none else
      let side_len :=
        if version = .v1 then (if channel_mode = 3 then 17 else 32)
        else (if channel_mode = 3 then 9 else 17)
      some ⟨frame_len, side_len⟩
    | _, _ => none

/-- The fixed per-frame cap on usable main-data bytes
(`max_main_bytes_per_frame`, lsb.py line 111). -/
def maxMainBytesPerFrame : Nat := 512

/-- The scan loop of `_collect_frames_and_regions` (lsb.py lines 115-127),
with explicit fuel.  Each iteration advances `off` by at least one byte
(frame lengths are at least 24), so fuel `mp3.length + 1` never runs out. -/
def collectFuel (mp3 : List Nat) : Nat → Nat → List (Nat × Nat)
  | 0, _ => []
  | fuel + 1, off =>
    if off + 4 ≤ mp3.length then
      match parseHeaderAt mp3 off with
      | none => collectFuel mp3 fuel (off + 1)
      | some hdr =>
        if off + hdr.frame_len > mp3.length then []
        else
          let s := off + 4 + hdr.side_len
          let e := min (off + hdr.frame_len) (s + maxMainBytesPerFrame)
          if s < e then (s, e) :: collectFuel mp3 fuel (off + hdr.frame_len)
          else collectFuel mp3 fuel (off + hdr.frame_len)
    else []

/-- `_collect_frames_and_regions` (lsb.py lines 111-128). -/
def collectFramesAndRegions (mp3 : List Nat) : List (Nat × Nat) :=
  collectFuel mp3 (mp3.length + 1) (skipId3v2 mp3)

/-! ### Container embedder (lsb.py lines 131-135, 213-297) -/

/-- `_MAGIC = b"MLSBv3"`. -/
def MAGIC : List Nat := [0x4D, 0x4C, 0x53, 0x42, 0x76, 0x33]

/-- `_FLAG_ENCRYPTED`. -/
def FLAG_ENCRYPTED : Nat := 1

/-- `_FLAG_RANDOM_START`. -/
def FLAG_RANDOM_START : Nat := 2

/-- `_HEADER_LEN_FIXED`. -/
def HEADER_LEN_FIXED : Nat := 22

/-- The flags byte assembled at lsb.py lines 232-238. -/
def embedFlags (encrypt random_start : Bool) : Nat :=
  (if encrypt then FLAG_ENCRYPTED else 0) |||
    (if random_start then FLAG_RANDOM_START else 0)

/-- The possibly encrypted payload (lsb.py lines 233-236). -/
def embedData (payload kb : List Nat) (encrypt : Bool) : List Nat :=
  if encrypt then vigenere256_encrypt payload kb else payload

/-- `header + data` as assembled at lsb.py lines 240-252.  `meta_json` stands
for the serialized `_file_metadata` blob, which depends on the filesystem and
is therefore a parameter. -/
def containerMessage (payload meta_json kb : List Nat) (nlsb : Nat)
    (encrypt random_start : Bool) : List Nat :=
  let data := embedData payload kb encrypt
  MAGIC ++ [embedFlags encrypt random_start &&& 0xFF] ++ [nlsb &&& 0xFF]
    ++ be4 data.length ++ be4 (crc32 data &&& 0xFFFFFFFF) ++ be4 meta_json.length
    ++ [0, 0] ++ meta_json ++ data

/-- `mask = 0xFF ^ ((1 << nlsb) - 1)` (lsb.py line 271). -/
def writeMask (nlsb : Nat) : Nat := 0xFF ^^^ ((1 <<< nlsb) - 1)

/-- One usable-byte position of the embed loop (lsb.py lines 272-284).  State
`(out, skip, bits)`: positions are passed over while `skip` is positive
(`passed < start_offset` in the code), then each position consumes the next
`nlsb`-bit group of the remaining message bits. -/
def embedStep (nlsb : Nat) :
    List Nat × Nat × List Nat → Nat → List Nat × Nat × List Nat
  | (out, skip + 1, bits), _ => (out, skip, bits)
  | (out, 0, bits), pos =>
    if bits = [] then (out, 0, bits)
    else
      (out.set pos ((out.getD pos 0 &&& writeMask nlsb) ||| groupVal (bits.take nlsb)),
       0, bits.drop nlsb)

/-- All usable byte positions of the scanned regions, in region order. -/
def usablePositions (regs : List (Nat × Nat)) : List Nat :=
  regs.flatMap fun r => List.range' r.1 (r.2 - r.1)

/-- The double write loop of lsb.py lines 268-286 (the `break`s are pure
optimisations: once the bits run out, `embedStep` is the identity). -/
def embedCore (mp3 : List Nat) (regs : List (Nat × Nat)) (msg_bits : List Nat)
    (start_offset nlsb : Nat) : List Nat × Nat × List Nat :=
  (usablePositions regs).foldl (embedStep nlsb) (mp3, start_offset, msg_bits)

/-- Functional characterisation of the embed loop's effect on the usable-byte
stream: each byte in turn receives the next `nlsb`-bit group in its low bits
until the message bits run out. -/
def writeBytesSpec (nlsb : Nat) : List Nat → List Nat → List Nat
  | [], _ => []
  | o :: os, bits =>
    if bits = [] then o :: os
    else ((o &&& writeMask nlsb) ||| groupVal (bits.take nlsb)) ::
      writeBytesSpec nlsb os (bits.drop nlsb)

/-- The failure modes of `embed_file`.  `invalidNlsb` is the `ValueError` at
line 223; `overflow` models the `OverflowError` that `int.to_bytes(4, "big")`
raises for values at least `2^32`; the rest are the `RuntimeError`s at lines
257, 263 and 288. -/
inductive EmbedError
  | invalidNlsb
  | overflow
  | noFrames
  | insufficientCapacity (needBits capBits : Nat)
  | capacityRanOut
  deriving DecidableEq

/-- `embed_file` (lsb.py lines 213-297) at the byte level: file reads/writes,
metadata capture and the PSNR diagnostic are I/O around this pure core. -/
def embedFile (mp3 payload meta_json kb : List Nat) (seed nlsb : Nat)
    (encrypt random_start : Bool) : Except EmbedError (List Nat) :=
  if nlsb < 1 ∨ nlsb > 4 then .error .invalidNlsb
  else
    let data := embedData payload kb encrypt
    if 2 ^ 32 ≤ data.length ∨ 2 ^ 32 ≤ meta_json.length then .error .overflow
    else
      let message := containerMessage payload meta_json kb nlsb encrypt random_start
      let msg_bits := bytesToBits message
      let regs := collectFramesAndRegions mp3
      if regs = [] then .error .noFrames
      else
        let total_bytes_md := (regs.map fun r => r.2 - r.1).sum
        let start_offset := if random_start then randrange seed total_bytes_md else 0
        let cap_bits := (total_bytes_md - start_offset) * nlsb
        if cap_bits < msg_bits.length then
          .error (.insufficientCapacity msg_bits.length cap_bits)
        else
          let res := embedCore mp3 regs msg_bits start_offset nlsb
          if res.2.2 ≠ [] then .error .capacityRanOut
          else .ok res.1

/-- `total_bytes_md` (lsb.py line 258): the length of the usable byte
stream. -/
def totalUsableBytes (mp3 : List Nat) : Nat :=
  ((collectFramesAndRegions mp3).map fun r => r.2 - r.1).sum

/-- The start offset chosen at lsb.py lines 259-261. -/
def startOffset (mp3 : List Nat) (seed : Nat) (random_start : Bool) : Nat :=
  if random_start then randrange seed (totalUsableBytes mp3) else 0

/-- `msg_bits` (lsb.py line 253). -/
def messageBits (payload meta_json kb : List Nat) (nlsb : Nat)
    (encrypt random_start : Bool) : List Nat :=
  bytesToBits (containerMessage payload meta_json kb nlsb encrypt random_start)

/-! ### Bitstream reader (lsb.py lines 395-418) -/

/-- `_BitStreamReader` state. -/
structure BitStreamReader where
  stream : List Nat
  pos : Nat
  n : Nat
  mask : Nat
  bitbuf : Nat
  bits_in_buf : Nat
  total : Nat
  deriving DecidableEq

/-- `_BitStreamReader.__init__` (lsb.py lines 396-403). -/
def BitStreamReader.start (stream : List Nat) (start_off nlsb : Nat) : BitStreamReader :=
  ⟨stream, start_off, nlsb, (1 <<< nlsb) - 1, 0, 0, stream.length⟩

/-- The `while` loop of `_BitStreamReader.read` with explicit fuel: every
iteration either emits an output byte (at most `k` of them) or consumes one
stream byte (at most `total` of them), so `k + total + 1` fuel suffices. -/
def readFuel : Nat → BitStreamReader → Nat → List Nat → List Nat × BitStreamReader
  | 0, br, _, out => (out, br)
  | fuel + 1, br, k, out =>
    if out.length < k then
      if br.bits_in_buf < 8 then
        if br.total ≤ br.pos then (out, br)
        else
          readFuel fuel
            { br with
              bitbuf := (br.bitbuf <<< br.n) ||| (br.stream.getD br.pos 0 &&& br.mask),
              bits_in_buf := br.bits_in_buf + br.n,
              pos := br.pos + 1 } k out
      else
        readFuel fuel { br with bits_in_buf := br.bits_in_buf - 8 }
          k (out ++ [(br.bitbuf >>> (br.bits_in_buf - 8)) &&& 0xFF])
    else (out, br)

/-- `_BitStreamReader.read` (lsb.py lines 405-418). -/
def BitStreamReader.read (br : BitStreamReader) (k : Nat) :
    List Nat × BitStreamReader :=
  readFuel (k + br.total + 1) br k []

/-- The abstract bit content of a reader state: the buffered, not yet emitted
bits followed by the low `n` bits of every remaining stream byte. -/
def readerBits (br : BitStreamReader) : List Nat :=
  natBits br.bits_in_buf br.bitbuf ++
    (br.stream.drop br.pos).flatMap fun b => natBits br.n (b &&& br.mask)

/-! ### Container extractor (lsb.py lines 299-392) -/

/-- File-system model: an association list from output paths to contents. -/
abbrev Fs := List (List Nat × List Nat)

/-- `open(path, "wb")` plus the subsequent writes: create or truncate. -/
def fsWrite (fs : Fs) (p c : List Nat) : Fs :=
  (p, c) :: fs.filter fun e => e.1 ≠ p

/-- `os.remove(path)`; missing files are ignored, as the code swallows the
exception. -/
def fsRemove (fs : Fs) (p : List Nat) : Fs := fs.filter fun e => e.1 ≠ p

/-- Look a path up in the file-system model. -/
def fsLookup (fs : Fs) (p : List Nat) : Option (List Nat) :=
  (fs.find? fun e => e.1 = p).map fun e => e.2

/-- `CHUNK = 1 << 16` (lsb.py line 349). -/
def CHUNK : Nat := 65536

/-- Result of the payload streaming loop (lsb.py lines 350-363): content
written so far (decrypted when the key is active), the running checksum over
the raw (pre-decryption) bytes, whether all `payload_len` bytes were read,
the reader state, and the byte count written. -/
structure PayloadLoopResult where
  content : List Nat
  crc : Nat
  completed : Bool
  br : BitStreamReader
  written : Nat

/-- The `while written < payload_len` loop (lsb.py lines 350-363) with
explicit fuel; each iteration advances `written` by at least 1, so
`payload_len + 1` fuel suffices. -/
def payloadFuel (kb : List Nat) (kbActive : Bool) (payload_len : Nat) :
    Nat → BitStreamReader → Nat → Nat → List Nat → PayloadLoopResult
  | 0, br, written, crc, content => ⟨content, crc, payload_len ≤ written, br, written⟩
  | fuel + 1, br, written, crc, content =>
    if written < payload_len then
      let need := min CHUNK (payload_len - written)
      let r := br.read need
      if r.1.length ≠ need then ⟨content, crc, false, r.2, written⟩
      else
        let dec := if kbActive then decryptChunkAt kb written r.1 else r.1
        payloadFuel kb kbActive payload_len fuel r.2 (written + need)
          (crc32Incr crc r.1) (content ++ dec)
    else ⟨content, crc, true, br, written⟩

/-- Outcome of one `(nlsb, offset)` candidate of the trial loop. -/
inductive CandOutcome
  | rejectNoFile
  | rejectAfterWrite (path written_content : List Nat)
  | success (path content : List Nat) (written : Nat)
  deriving DecidableEq

/-- Whether a candidate outcome is the validating one (the `return` at
lsb.py line 392 as opposed to a `continue` of the trial loop). -/
def CandOutcome.isSuccess : CandOutcome → Bool
  | .success _ _ _ => true
  | _ => false

/-- One `(n, off)` candidate of `extract_file` (lsb.py lines 321-377).
`jsonOK` models success of `meta_bytes.decode("utf-8")` + `json.loads`;
`resolve` models `_resolve_output_path`, whose result depends on the
filesystem — both are universally quantified in the theorems. -/
def candidateResult (jsonOK : List Nat → Bool) (resolve : List Nat → List Nat)
    (stream kb : List Nat) (n off : Nat) : CandOutcome :=
  let r1 := (BitStreamReader.start stream off n).read HEADER_LEN_FIXED
  let fixed := r1.1
  if fixed.length ≠ HEADER_LEN_FIXED ∨ fixed.take 6 ≠ MAGIC ∨ fixed.getD 7 0 ≠ n then
    .rejectNoFile
  else
    let flags := fixed.getD 6 0
    let payload_len := fromBE4 ((fixed.drop 8).take 4)
    let crc_hdr := fromBE4 ((fixed.drop 12).take 4)
    let meta_len := fromBE4 ((fixed.drop 16).take 4)
    let r2 := r1.2.read meta_len
    if r2.1.length ≠ meta_len then .rejectNoFile
    else if ¬ jsonOK r2.1 then .rejectNoFile
    else
      let out_file := resolve r2.1
      let kbActive : Bool := decide (flags &&& FLAG_ENCRYPTED ≠ 0 ∧ kb ≠ [])
      let res := payloadFuel kb kbActive payload_len (payload_len + 1) r2.2 0 0 []
      if res.completed = false then .rejectAfterWrite out_file res.content
      else if res.crc &&& 0xFFFFFFFF ≠ crc_hdr then .rejectAfterWrite out_file res.content
      else .success out_file res.content res.written

/-- Apply one candidate's file-system effects: a rejection after the output
file was opened deletes it again (lsb.py lines 364-377); a success leaves
it in place. -/
def applyCand (fs : Fs) : CandOutcome → Option (List Nat × Nat) × Fs
  | .rejectNoFile => (none, fs)
  | .rejectAfterWrite p c => (none, fsRemove (fsWrite fs p c) p)
  | .success p c w => (some (p, w), fsWrite fs p c)

/-- The trial loop of `extract_file` (lsb.py lines 319-392): first validating
candidate wins; exhaustion is the fatal error. -/
def extractLoop (jsonOK : List Nat → Bool) (resolve : List Nat → List Nat)
    (stream kb : List Nat) :
    List (Nat × Nat) → Fs → Except String (List Nat × Nat) × Fs
  | [], fs =>
    (.error "Failed to extract at deterministic offsets. Re-embed and verify the key/options.",
     fs)
  | c :: rest, fs =>
    match applyCand fs (candidateResult jsonOK resolve stream kb c.1 c.2) with
    | (some pw, fs') => (.ok pw, fs')
    | (none, fs') => extractLoop jsonOK resolve stream kb rest fs'

/-- The usable-byte stream materialised at lsb.py lines 310-312. -/
def streamOf (mp3 : List Nat) (regs : List (Nat × Nat)) : List Nat :=
  regs.flatMap fun r => (mp3.drop r.1).take (r.2 - r.1)

/-- The `(nlsb, offset)` trial order of lsb.py lines 317-320: 4 bit widths
times the two candidate offsets `[0, seeded]`. -/
def candList (r : Nat) : List (Nat × Nat) :=
  [(1, 0), (1, r), (2, 0), (2, r), (3, 0), (3, r), (4, 0), (4, r)]

/-- `extract_file` (lsb.py lines 299-392): returns the resolved output path
and byte count (the status string is presentation), threading the
file-system model. -/
def extractFile (jsonOK : List Nat → Bool) (resolve : List Nat → List Nat)
    (mp3 kb : List Nat) (seed : Nat) (fs : Fs) :
    Except String (List Nat × Nat) × Fs :=
  let regs := collectFramesAndRegions mp3
  if regs = [] then (.error "No MP3 frames/regions found.", fs)
  else
    let stream := streamOf mp3 regs
    if stream.length = 0 then (.error "Main-data stream empty.", fs)
    else
      extractLoop jsonOK resolve stream kb
        (candList (randrange seed stream.length)) fs

/-! ### Concrete fixtures for witnesses

A minimal valid Layer-III frame: version 2 (`ver_bits = 2`), 8 kbps,
24000 Hz, mono ⇒ `frame_len = 24`, `side_len = 9`, usable region of 11
bytes per frame at offsets `[13, 24)` within the frame. -/

/-- One 24-byte demo frame. -/
def demoFrame : List Nat :=
  [0xFF, 0xF3, 0x14, 0xC0] ++ List.replicate 9 0 ++ List.replicate 11 0xAA

/-- A demo cover of `k` consecutive demo frames. -/
def demoCover (k : Nat) : List Nat := (List.replicate k demoFrame).flatten

/-- A stego file embedded at `nlsb = 3` whose message bit count (224 bits:
the 22-byte fixed header, 2 metadata bytes and a 4-byte payload) is not
divisible by 3: the final 3-bit group is short. -/
def demoStego3 : List Nat :=
  (embedFile (demoCover 12) [1, 2, 3, 250] [123, 125] [104, 117, 110] 7 3
    true false).toOption.getD []

/-- The usable-byte stream of `demoStego3`. -/
def demoStream3 : List Nat :=
  streamOf demoStego3 (collectFramesAndRegions demoStego3)

/-- A stego file embedded at `nlsb = 1` (which divides every message bit
count) with a fixed start offset, for the round-trip witness. -/
def demoStego1 : List Nat :=
  (embedFile (demoCover 20) [9, 200] [123, 125] [104, 117, 110] 5 1
    true false).toOption.getD []

/-! ### Helper lemmas: bits and bit groups -/

theorem natBits_length (w v : Nat) : (natBits w v).length = w := by
  induction w generalizing v with
  | zero => rfl
  | succ w ih => simp [natBits, ih]

theorem natBits_mem_lt (w v : Nat) : ∀ x ∈ natBits w v, x < 2 := by
  induction w generalizing v with
  | zero => simp [natBits]
  | succ w ih =>
    intro x hx
    simp only [natBits, List.mem_cons] at hx
    rcases hx with h | h
    · subst h
      have : (v >>> w) &&& 1 ≤ 1 := Nat.and_le_right
      omega
    · exact ih v x h

theorem natBits_append (a b v : Nat) :
    natBits (a + b) v = natBits a (v >>> b) ++ natBits b v := by
  induction a with
  | zero => simp [natBits]
  | succ a ih =>
    have h1 : a + 1 + b = (a + b) + 1 := by omega
    rw [h1]
    show ((v >>> (a + b)) &&& 1) :: natBits (a + b) v = _
    rw [ih]
    show _ = (((v >>> b) >>> a) &&& 1) :: (natBits a (v >>> b) ++ natBits b v)
    rw [← Nat.shiftRight_add, Nat.add_comm b a]

theorem natBits_mod (w v : Nat) : natBits w (v % 2 ^ w) = natBits w v := by
  induction w generalizing v with
  | zero => rfl
  | succ w ih =>
    have hd : (v % 2 ^ (w + 1)) >>> w = (v >>> w) % 2 := by
      rw [Nat.shiftRight_eq_div_pow, Nat.shiftRight_eq_div_pow, Nat.mod_pow_succ,
        Nat.add_mul_div_left _ _ (Nat.pos_pow_of_pos w (by omega)),
        Nat.div_eq_of_lt (Nat.mod_lt _ (Nat.pos_pow_of_pos w (by omega))),
        Nat.zero_add]
    have ht : natBits w (v % 2 ^ (w + 1)) = natBits w v := by
      have h2 : v % 2 ^ (w + 1) % 2 ^ w = v % 2 ^ w :=
        Nat.mod_mod_of_dvd v (pow_dvd_pow 2 (by omega))
      rw [← ih (v % 2 ^ (w + 1)), h2, ih]
    show ((v % 2 ^ (w + 1)) >>> w &&& 1) :: natBits w (v % 2 ^ (w + 1)) =
      (v >>> w &&& 1) :: natBits w v
    rw [hd, ht]
    congr 1
    rw [Nat.and_one_is_mod, Nat.and_one_is_mod, Nat.mod_mod_of_dvd _ (dvd_refl 2)]

theorem shiftLeft_or_lt {v w : Nat} (h : v < 2 ^ w) (x : Nat) :
    (x <<< w) ||| v = x * 2 ^ w + v := by
  rw [Nat.shiftLeft_eq, Nat.mul_comm x (2 ^ w), ← Nat.mul_add_lt_is_or h x,
    Nat.mul_comm]

theorem shiftLeft_or_shiftRight {v w : Nat} (h : v < 2 ^ w) (x : Nat) :
    ((x <<< w) ||| v) >>> w = x := by
  rw [shiftLeft_or_lt h, Nat.shiftRight_eq_div_pow]
  rw [Nat.mul_comm, Nat.mul_add_div (Nat.pos_pow_of_pos w (by omega)),
    Nat.div_eq_of_lt h]
  omega

theorem shiftLeft_or_mod {v w : Nat} (h : v < 2 ^ w) (x : Nat) :
    ((x <<< w) ||| v) % 2 ^ w = v := by
  rw [shiftLeft_or_lt h, Nat.mul_comm, Nat.mul_add_mod, Nat.mod_eq_of_lt h]

theorem groupVal_append (g : List Nat) (b : Nat) (hb : b < 2) :
    groupVal (g ++ [b]) = 2 * groupVal g + b := by
  unfold groupVal
  rw [List.foldl_append]
  show (List.foldl _ 0 g <<< 1) ||| (b &&& 1) = _
  have hb1 : b &&& 1 = b := by rw [Nat.and_one_is_mod]; omega
  rw [hb1, shiftLeft_or_lt (show b < 2 ^ 1 by omega)]
  ring_nf

theorem groupVal_lt (g : List Nat) (hg : ∀ b ∈ g, b < 2) :
    groupVal g < 2 ^ g.length := by
  induction g using List.reverseRecOn with
  | nil => simp [groupVal]
  | append_singleton g b ih =>
    rw [groupVal_append g b (hg b (by simp))]
    have := ih fun x hx => hg x (by simp [hx])
    have hb := hg b (by simp)
    simp only [List.length_append, List.length_cons, List.length_nil]
    rw [pow_succ]
    omega

theorem natBits_groupVal (g : List Nat) (hg : ∀ b ∈ g, b < 2) :
    natBits g.length (groupVal g) = g := by
  induction g using List.reverseRecOn with
  | nil => rfl
  | append_singleton g b ih =>
    have hb : b < 2 := hg b (by simp)
    rw [groupVal_append g b hb]
    have hlen : (g ++ [b]).length = g.length + 1 := by simp
    rw [hlen, natBits_append g.length 1 _]
    have h1 : (2 * groupVal g + b) >>> 1 = groupVal g := by
      rw [Nat.shiftRight_eq_div_pow]
      omega
    have h2 : natBits 1 (2 * groupVal g + b) = [b] := by
      show [(2 * groupVal g + b) >>> 0 &&& 1] = [b]
      rw [Nat.shiftRight_zero, Nat.and_one_is_mod]
      congr 1
      omega
    rw [h1, h2, ih fun x hx => hg x (by simp [hx])]

theorem groupVal_natBits (w v : Nat) : groupVal (natBits w v) = v % 2 ^ w := by
  induction w generalizing v with
  | zero => simp [natBits, groupVal, Nat.mod_one]
  | succ w ih =>
    have hsplit : natBits (w + 1) v = natBits w (v >>> 1) ++ natBits 1 v :=
      natBits_append w 1 v
    have h1 : natBits 1 v = [v &&& 1] := by
      show [v >>> 0 &&& 1] = [v &&& 1]
      rw [Nat.shiftRight_zero]
    rw [hsplit, h1, show (natBits w (v >>> 1)) ++ [v &&& 1] =
      (natBits w (v >>> 1)) ++ [v &&& 1] from rfl]
    rw [groupVal_append _ _ (by have : v &&& 1 ≤ 1 := Nat.and_le_right; omega)]
    rw [ih]
    rw [Nat.shiftRight_eq_div_pow, Nat.and_one_is_mod]
    have hmul : v % (2 * 2 ^ w) = v % 2 + 2 * (v / 2 % 2 ^ w) := Nat.mod_mul
    have : (2 : Nat) ^ (w + 1) = 2 * 2 ^ w := by ring
    rw [this, hmul]
    have : v / 2 ^ 1 = v / 2 := by norm_num
    rw [this]
    omega

theorem bytesToBits_eq (l : List Nat) : bytesToBits l = l.flatMap (natBits 8) := by
  induction l with
  | nil => rfl
  | cons b t ih =>
    show bytesToBits (b :: t) = natBits 8 b ++ t.flatMap (natBits 8)
    rw [← ih]
    unfold bytesToBits
    have hlen : (b :: t).length * 8 = 8 + t.length * 8 := by
      simp [List.length_cons]; ring
    rw [hlen, List.range_add, List.map_append, List.map_map]
    have h1 : (List.range 8).map
        (fun i => (b :: t).getD (i / 8) 0 >>> (7 - i % 8) &&& 1) = natBits 8 b := by
      have h8 : List.range 8 = [0, 1, 2, 3, 4, 5, 6, 7] := rfl
      rw [h8]
      rfl
    have h2 : (List.range (t.length * 8)).map
        ((fun i => (b :: t).getD (i / 8) 0 >>> (7 - i % 8) &&& 1) ∘ fun x => 8 + x) =
        (List.range (t.length * 8)).map
          (fun i => t.getD (i / 8) 0 >>> (7 - i % 8) &&& 1) := by
      apply List.map_congr_left
      intro i _
      show (b :: t).getD ((8 + i) / 8) 0 >>> (7 - (8 + i) % 8) &&& 1 = _
      have hd : (8 + i) / 8 = i / 8 + 1 := by
        rw [Nat.add_comm 8 i, Nat.add_div_right i (by omega)]
      have hm : (8 + i) % 8 = i % 8 := Nat.add_mod_left 8 i
      rw [hd, hm, List.getD_cons_succ]
    rw [h1, h2]

theorem bytesToBits_length (l : List Nat) : (bytesToBits l).length = l.length * 8 := by
  unfold bytesToBits
  rw [List.length_map, List.length_range]

theorem bytesToBits_mem_lt (l : List Nat) : ∀ x ∈ bytesToBits l, x < 2 := by
  intro x hx
  unfold bytesToBits at hx
  rw [List.mem_map] at hx
  obtain ⟨i, _, hi⟩ := hx
  have : (l.getD (i / 8) 0 >>> (7 - i % 8)) &&& 1 ≤ 1 := Nat.and_le_right
  omega

theorem bitsToBytes_nil_of_short (l : List Nat) (h : l.length < 8) :
    bitsToBytes l = [] := by
  rcases l with _ | ⟨b0, _ | ⟨b1, _ | ⟨b2, _ | ⟨b3, _ | ⟨b4, _ | ⟨b5, _ |
    ⟨b6, _ | ⟨b7, rest⟩⟩⟩⟩⟩⟩⟩⟩ <;> first
    | rfl
    | (simp only [List.length_cons] at h; omega)

theorem bitsToBytes_natBits8 (v : Nat) (rest : List Nat) :
    bitsToBytes (natBits 8 v ++ rest) = (v % 256) :: bitsToBytes rest := by
  have h8 : natBits 8 v = [(v >>> 7) &&& 1, (v >>> 6) &&& 1, (v >>> 5) &&& 1,
      (v >>> 4) &&& 1, (v >>> 3) &&& 1, (v >>> 2) &&& 1, (v >>> 1) &&& 1,
      (v >>> 0) &&& 1] := rfl
  rw [h8]
  show groupVal _ :: bitsToBytes rest = _
  congr 1
  have := groupVal_natBits 8 v
  rw [h8] at this
  exact this

theorem bitsToBytes_prefix (m r : List Nat) (hm : ∀ b ∈ m, b < 256) :
    bitsToBytes (bytesToBits m ++ r) = m ++ bitsToBytes r := by
  induction m with
  | nil =>
    have : bytesToBits ([] : List Nat) = [] := rfl
    simp [this]
  | cons b t ih =>
    rw [bytesToBits_eq]
    show bitsToBytes ((natBits 8 b ++ t.flatMap (natBits 8)) ++ r) = _
    rw [List.append_assoc, bitsToBytes_natBits8, ← bytesToBits_eq,
      ih fun x hx => hm x (by simp [hx])]
    have : b % 256 = b := Nat.mod_eq_of_lt (hm b (by simp))
    rw [this]
    rfl

theorem bitsToBytes_drop_eight (l : List Nat) :
    bitsToBytes (l.drop 8) = (bitsToBytes l).drop 1 := by
  rcases l with _ | ⟨b0, _ | ⟨b1, _ | ⟨b2, _ | ⟨b3, _ | ⟨b4, _ | ⟨b5, _ |
    ⟨b6, _ | ⟨b7, rest⟩⟩⟩⟩⟩⟩⟩⟩ <;> rfl

theorem bitsToBytes_drop (j : Nat) (l : List Nat) :
    bitsToBytes (l.drop (8 * j)) = (bitsToBytes l).drop j := by
  induction j generalizing l with
  | zero => simp
  | succ j ih =>
    have h1 : 8 * (j + 1) = 8 + 8 * j := by ring
    rw [h1, ← List.drop_drop, ih, bitsToBytes_drop_eight, List.drop_drop,
      Nat.add_comm]

theorem bitsToBytes_length (l : List Nat) :
    (bitsToBytes l).length = l.length / 8 := by
  induction l using bitsToBytes.induct with
  | case1 b0 b1 b2 b3 b4 b5 b6 b7 rest ih =>
    show (_ :: bitsToBytes rest).length = _
    rw [List.length_cons, ih]
    simp only [List.length_cons]
    omega
  | case2 l h =>
    have hlen : l.length < 8 := by
      rcases l with _ | ⟨b0, _ | ⟨b1, _ | ⟨b2, _ | ⟨b3, _ | ⟨b4, _ | ⟨b5, _ |
        ⟨b6, _ | ⟨b7, rest⟩⟩⟩⟩⟩⟩⟩⟩ <;>
        first
        | (simp only [List.length_cons, List.length_nil]; omega)
        | exact (h b0 b1 b2 b3 b4 b5 b6 b7 rest rfl).elim
    rw [bitsToBytes_nil_of_short l hlen, Nat.div_eq_of_lt hlen]
    rfl

/-! ### Helper lemmas: CRC-32 -/

theorem crc32Raw_append (c : Nat) (a b : List Nat) :
    crc32Raw c (a ++ b) = crc32Raw (crc32Raw c a) b := by
  unfold crc32Raw
  rw [List.foldl_append]

theorem crc32Incr_append (v : Nat) (a b : List Nat) :
    crc32Incr (crc32Incr v a) b = crc32Incr v (a ++ b) := by
  unfold crc32Incr
  rw [crc32Raw_append]
  congr 2
  rw [Nat.xor_assoc, Nat.xor_self, Nat.xor_zero]

theorem crc32Step_lt {c : Nat} (h : c < 2 ^ 32) : crc32Step c < 2 ^ 32 := by
  unfold crc32Step
  have hs : c >>> 1 < 2 ^ 32 := by
    rw [Nat.shiftRight_eq_div_pow]
    omega
  split
  · exact Nat.xor_lt_two_pow hs (by norm_num)
  · exact hs

theorem crc32Entry_lt {b : Nat} (h : b < 2 ^ 32) : crc32Entry b < 2 ^ 32 := by
  show crc32Step^[8] b < 2 ^ 32
  exact crc32Step_lt (crc32Step_lt (crc32Step_lt (crc32Step_lt (crc32Step_lt
    (crc32Step_lt (crc32Step_lt (crc32Step_lt h)))))))

theorem crc32Byte_lt {c : Nat} (_h : c < 2 ^ 32) (b : Nat) :
    crc32Byte c b < 2 ^ 32 := by
  unfold crc32Byte
  apply Nat.xor_lt_two_pow
  · apply crc32Entry_lt
    have : ((c ^^^ b) &&& 0xFF) ≤ 0xFF := Nat.and_le_right
    omega
  · rw [Nat.shiftRight_eq_div_pow]
    omega

theorem crc32Raw_lt {c : Nat} (h : c < 2 ^ 32) (l : List Nat) :
    crc32Raw c l < 2 ^ 32 := by
  induction l generalizing c with
  | nil => exact h
  | cons b t ih =>
    show crc32Raw (crc32Byte c b) t < 2 ^ 32
    exact ih (crc32Byte_lt h b)

theorem crc32Incr_lt {v : Nat} (h : v < 2 ^ 32) (l : List Nat) :
    crc32Incr v l < 2 ^ 32 := by
  unfold crc32Incr
  exact Nat.xor_lt_two_pow (crc32Raw_lt (Nat.xor_lt_two_pow h (by norm_num)) l)
    (by norm_num)

theorem crc32_lt (l : List Nat) : crc32 l < 2 ^ 32 :=
  crc32Incr_lt (by norm_num) l

/-! ### Helper lemmas: cipher -/

theorem byteSub_byteAdd {b : Nat} (hb : b < 256) (k : Nat) :
    byteSub (byteAdd b k) k = b := by
  unfold byteAdd byteSub
  have hc : (((b + k) % 256 : Nat) : Int) = (((b : Int) + (k : Int)) % 256) := by
    push_cast
    ring_nf
  rw [hc]
  have hb' : ((((b : Int) + (k : Int)) % 256 - (k : Int)) % 256) = (b : Int) := by
    omega
  rw [hb']
  exact Int.toNat_natCast b

theorem mapIdx_mapIdx {α β γ : Type} (l : List α) (g : Nat → α → β) (f : Nat → β → γ) :
    (l.mapIdx g).mapIdx f = l.mapIdx fun i a => f i (g i a) := by
  apply List.ext_getElem
  · simp
  · intro i h1 h2
    simp

theorem decryptChunkAt_append (kb : List Nat) (w : Nat) (a b : List Nat) :
    decryptChunkAt kb w (a ++ b) =
      decryptChunkAt kb w a ++ decryptChunkAt kb (w + a.length) b := by
  unfold decryptChunkAt
  rw [List.mapIdx_append]
  congr 1
  have hfg : (fun i b => byteSub b (kb.getD ((w + (i + a.length)) % kb.length) 0)) =
      fun i b => byteSub b (kb.getD ((w + a.length + i) % kb.length) 0) := by
    funext i x
    rw [show w + (i + a.length) = w + a.length + i by omega]
  rw [hfg]

theorem decryptChunksFrom_eq (kb : List Nat) (w : Nat) (cs : List (List Nat)) :
    decryptChunksFrom kb w cs = decryptChunkAt kb w cs.flatten := by
  induction cs generalizing w with
  | nil => rfl
  | cons c cs ih =>
    show decryptChunkAt kb w c ++ decryptChunksFrom kb (w + c.length) cs = _
    rw [ih, List.flatten_cons, decryptChunkAt_append]

theorem vigenere256_decrypt_eq_chunk (data kb : List Nat) :
    vigenere256_decrypt data kb = decryptChunkAt kb 0 data := by
  unfold vigenere256_decrypt decryptChunkAt
  congr 1
  funext i b
  rw [Nat.zero_add]

theorem decryptChunkAt_encrypt (payload kb : List Nat) (hk : kb ≠ [])
    (hp : ∀ b ∈ payload, b < 256) :
    decryptChunkAt kb 0 (vigenere256_encrypt payload kb) = payload := by
  unfold vigenere256_encrypt
  rw [if_neg hk]
  unfold decryptChunkAt
  rw [mapIdx_mapIdx]
  apply List.ext_getElem
  · simp
  · intro i h1 h2
    simp only [List.getElem_mapIdx, Nat.zero_add]
    exact byteSub_byteAdd (hp _ (List.getElem_mem h2)) _

/-! ### Helper lemmas: frame header parsing -/

theorem parseHeaderAt_facts {mp3 : List Nat} {off : Nat} {hdr : FrameHeader}
    (h : parseHeaderAt mp3 off = some hdr) :
    24 ≤ hdr.frame_len ∧ 9 ≤ hdr.side_len ∧ off + 4 ≤ mp3.length := by
  simp only [parseHeaderAt] at h
  repeat' split at h
  all_goals first
    | exact Option.noConfusion h
    | (rcases Option.some_injective _ h with rfl
       dsimp only
       exact ⟨by omega, by omega, by omega⟩)

/-! ### Helper lemmas: scanner regions -/

theorem collectFuel_bounds (mp3 : List Nat) :
    ∀ fuel off, ∀ r ∈ collectFuel mp3 fuel off,
      off + 13 ≤ r.1 ∧ r.1 < r.2 ∧ r.2 ≤ mp3.length := by
  intro fuel
  induction fuel with
  | zero => intro off r hr; simp [collectFuel] at hr
  | succ fuel ih =>
    intro off r hr
    simp only [collectFuel] at hr
    split at hr
    case isFalse => simp at hr
    case isTrue hoff =>
    split at hr
    case h_1 =>
      have := ih (off + 1) r hr
      omega
    case h_2 hdr heq =>
      have hfacts := parseHeaderAt_facts heq
      split at hr
      case isTrue => simp at hr
      case isFalse hfit =>
      split at hr
      case isTrue hse =>
        rcases List.mem_cons.mp hr with rfl | hr'
        · refine ⟨by omega, hse, ?_⟩
          have : min (off + hdr.frame_len) (off + 4 + hdr.side_len + maxMainBytesPerFrame)
              ≤ off + hdr.frame_len := Nat.min_le_left _ _
          omega
        · have := ih (off + hdr.frame_len) r hr'
          omega
      case isFalse =>
        have := ih (off + hdr.frame_len) r hr
        omega

theorem collectFuel_chain (mp3 : List Nat) :
    ∀ fuel off, List.Pairwise (fun r r' => r.2 ≤ r'.1) (collectFuel mp3 fuel off) := by
  intro fuel
  induction fuel with
  | zero => intro off; simp [collectFuel]
  | succ fuel ih =>
    intro off
    simp only [collectFuel]
    split
    case isFalse => simp
    case isTrue hoff =>
    split
    case h_1 => exact ih (off + 1)
    case h_2 hdr heq =>
      split
      case isTrue => simp
      case isFalse hfit =>
      split
      case isTrue hse =>
        refine List.Pairwise.cons ?_ (ih (off + hdr.frame_len))
        intro r' hr'
        have := collectFuel_bounds mp3 fuel (off + hdr.frame_len) r' hr'
        have : min (off + hdr.frame_len) (off + 4 + hdr.side_len + maxMainBytesPerFrame)
            ≤ off + hdr.frame_len := Nat.min_le_left _ _
        omega
      case isFalse => exact ih (off + hdr.frame_len)

/-! ### Helper lemmas: embedder -/

set_option maxRecDepth 100000 in
theorem writeByte_shift :
    ∀ n < 5, ∀ o < 256, ∀ v < 2 ^ n,
      ((o &&& writeMask n) ||| v) >>> n = o >>> n := by decide

set_option maxRecDepth 100000 in
theorem writeByte_lt :
    ∀ n < 5, ∀ o < 256, ∀ v < 2 ^ n, ((o &&& writeMask n) ||| v) < 256 := by decide

set_option maxRecDepth 100000 in
theorem writeByte_low :
    ∀ n < 5, ∀ o < 256, ∀ v < 2 ^ n,
      ((o &&& writeMask n) ||| v) &&& ((1 <<< n) - 1) = v := by decide

theorem getD_set_ne {l : List Nat} {p q : Nat} (h : p ≠ q) (v : Nat) :
    (l.set p v).getD q 0 = l.getD q 0 := by
  simp [List.getD_eq_getElem?_getD, List.getElem?_set_ne h]

theorem getD_set_self {l : List Nat} {p : Nat} (h : p < l.length) (v : Nat) :
    (l.set p v).getD p 0 = v := by
  simp [List.getD_eq_getElem?_getD, List.getElem?_set_self, h]

theorem groupVal_take_lt (nlsb : Nat) (bits : List Nat) (hb : ∀ b ∈ bits, b < 2) :
    groupVal (bits.take nlsb) < 2 ^ nlsb := by
  have h1 : groupVal (bits.take nlsb) < 2 ^ (bits.take nlsb).length :=
    groupVal_lt _ fun b hbmem => hb b (List.mem_of_mem_take hbmem)
  have h2 : (bits.take nlsb).length ≤ nlsb := by
    simp [List.length_take]
  calc groupVal (bits.take nlsb) < 2 ^ (bits.take nlsb).length := h1
    _ ≤ 2 ^ nlsb := Nat.pow_le_pow_right (by omega) h2

theorem writeBytesSpec_nil_bits (nlsb : Nat) (os : List Nat) :
    writeBytesSpec nlsb os [] = os := by
  cases os with
  | nil => rfl
  | cons o os => simp [writeBytesSpec]

theorem embedFold_length (nlsb : Nat) (P : List Nat) (out : List Nat) (skip : Nat)
    (bits : List Nat) :
    ((P.foldl (embedStep nlsb) (out, skip, bits)).1).length = out.length := by
  induction P generalizing out skip bits with
  | nil => rfl
  | cons p P ih =>
    show ((P.foldl (embedStep nlsb) (embedStep nlsb (out, skip, bits) p)).1).length = _
    rcases skip with _ | s
    · by_cases hb : bits = []
      · rw [show embedStep nlsb (out, 0, bits) p = (out, 0, bits) by
          simp [embedStep, hb]]
        exact ih out 0 bits
      · rw [show embedStep nlsb (out, 0, bits) p =
            (out.set p ((out.getD p 0 &&& writeMask nlsb) ||| groupVal (bits.take nlsb)),
             0, bits.drop nlsb) by simp [embedStep, hb]]
        rw [ih]
        exact List.length_set ..
    · exact ih out s bits

theorem embedFold_untouched (nlsb : Nat) (P : List Nat) (out : List Nat) (skip : Nat)
    (bits : List Nat) (q : Nat) (hq : q ∉ P) :
    ((P.foldl (embedStep nlsb) (out, skip, bits)).1).getD q 0 = out.getD q 0 := by
  induction P generalizing out skip bits with
  | nil => rfl
  | cons p P ih =>
    have hqp : q ≠ p := fun hc => hq (hc ▸ List.mem_cons_self p P)
    have hqP : q ∉ P := fun hc => hq (List.mem_cons_of_mem p hc)
    show ((P.foldl (embedStep nlsb) (embedStep nlsb (out, skip, bits) p)).1).getD q 0 = _
    rcases skip with _ | s
    · by_cases hb : bits = []
      · rw [show embedStep nlsb (out, 0, bits) p = (out, 0, bits) by
          simp [embedStep, hb]]
        exact ih out 0 bits hqP
      · rw [show embedStep nlsb (out, 0, bits) p =
            (out.set p ((out.getD p 0 &&& writeMask nlsb) ||| groupVal (bits.take nlsb)),
             0, bits.drop nlsb) by simp [embedStep, hb]]
        rw [ih _ _ _ hqP]
        exact getD_set_ne (fun hc => hqp hc.symm) _
    · exact ih out s bits hqP

theorem embedFold_leftover (nlsb : Nat) (P : List Nat) (out : List Nat) (skip : Nat)
    (bits : List Nat) :
    (P.foldl (embedStep nlsb) (out, skip, bits)).2.2 =
      bits.drop ((P.length - skip) * nlsb) := by
  induction P generalizing out skip bits with
  | nil => simp
  | cons p P ih =>
    show (P.foldl (embedStep nlsb) (embedStep nlsb (out, skip, bits) p)).2.2 = _
    rcases skip with _ | s
    · by_cases hb : bits = []
      · rw [show embedStep nlsb (out, 0, bits) p = (out, 0, bits) by
          simp [embedStep, hb]]
        rw [ih, hb]
        simp
      · rw [show embedStep nlsb (out, 0, bits) p =
            (out.set p ((out.getD p 0 &&& writeMask nlsb) ||| groupVal (bits.take nlsb)),
             0, bits.drop nlsb) by simp [embedStep, hb]]
        rw [ih, List.drop_drop]
        congr 1
        simp only [List.length_cons, Nat.sub_zero]
        ring
    · rw [show embedStep nlsb (out, s + 1, bits) p = (out, s, bits) by
        simp [embedStep]]
      rw [ih]
      congr 2
      simp only [List.length_cons]
      omega

theorem embedFold_map (nlsb : Nat) (P : List Nat) (out : List Nat) (skip : Nat)
    (bits : List Nat) (hnodup : P.Nodup) (hlt : ∀ p ∈ P, p < out.length) :
    P.map (fun p => ((P.foldl (embedStep nlsb) (out, skip, bits)).1).getD p 0) =
      (P.take skip).map (fun p => out.getD p 0) ++
        writeBytesSpec nlsb ((P.drop skip).map (fun p => out.getD p 0)) bits := by
  induction P generalizing out skip bits with
  | nil => simp [writeBytesSpec]
  | cons p P ih =>
    have hpP : p ∉ P := (List.nodup_cons.mp hnodup).1
    have hnodup' : P.Nodup := (List.nodup_cons.mp hnodup).2
    have hplt : p < out.length := hlt p (List.mem_cons_self p P)
    rcases skip with _ | s
    · by_cases hb : bits = []
      · subst hb
        have hstep : embedStep nlsb (out, 0, ([] : List Nat)) p = (out, 0, []) := by
          simp [embedStep]
        show (p :: P).map
            (fun q => ((P.foldl (embedStep nlsb) (embedStep nlsb (out, 0, []) p)).1).getD q 0)
            = _
        rw [hstep]
        simp only [List.map_cons, List.take_zero, List.drop_zero, List.map_nil,
          List.nil_append]
        rw [show writeBytesSpec nlsb (out.getD p 0 :: (P.map fun q => out.getD q 0))
            ([] : List Nat) = out.getD p 0 :: (P.map fun q => out.getD q 0) by
          simp [writeBytesSpec]]
        congr 1
        · exact embedFold_untouched nlsb P out 0 [] p hpP
        · have heq := ih out 0 [] hnodup' (fun q hq => hlt q (List.mem_cons_of_mem p hq))
          simp only [List.take_zero, List.drop_zero, List.map_nil, List.nil_append,
            writeBytesSpec_nil_bits] at heq
          exact heq
      · have hstep : embedStep nlsb (out, 0, bits) p =
            (out.set p ((out.getD p 0 &&& writeMask nlsb) ||| groupVal (bits.take nlsb)),
             0, bits.drop nlsb) := by simp [embedStep, hb]
        show (p :: P).map
            (fun q => ((P.foldl (embedStep nlsb) (embedStep nlsb (out, 0, bits) p)).1).getD q 0)
            = _
        rw [hstep]
        set out2 := out.set p ((out.getD p 0 &&& writeMask nlsb) ||| groupVal (bits.take nlsb))
          with hout2
        simp only [List.map_cons, List.take_zero, List.drop_zero, List.map_nil,
          List.nil_append]
        rw [show writeBytesSpec nlsb (out.getD p 0 :: (P.map fun q => out.getD q 0)) bits =
            ((out.getD p 0 &&& writeMask nlsb) ||| groupVal (bits.take nlsb)) ::
              writeBytesSpec nlsb (P.map fun q => out.getD q 0) (bits.drop nlsb) by
          simp [writeBytesSpec, hb]]
        congr 1
        · rw [embedFold_untouched nlsb P out2 0 (bits.drop nlsb) p hpP, hout2]
          exact getD_set_self hplt _
        · have hmap2 : P.map (fun q => out2.getD q 0) = P.map (fun q => out.getD q 0) := by
            apply List.map_congr_left
            intro q hq
            rw [hout2]
            refine getD_set_ne ?_ _
            intro hc
            subst hc
            exact hpP hq
          have hlt2 : ∀ q ∈ P, q < out2.length := by
            intro q hq
            rw [hout2, List.length_set]
            exact hlt q (List.mem_cons_of_mem p hq)
          have := ih out2 0 (bits.drop nlsb) hnodup' hlt2
          simp only [List.take_zero, List.drop_zero, List.map_nil, List.nil_append] at this
          rw [this, hmap2]
    · have hstep : embedStep nlsb (out, s + 1, bits) p = (out, s, bits) := by
        simp [embedStep]
      show (p :: P).map
          (fun q => ((P.foldl (embedStep nlsb) (embedStep nlsb (out, s + 1, bits) p)).1).getD q 0)
          = _
      rw [hstep]
      simp only [List.map_cons, List.take_succ_cons, List.drop_succ_cons]
      rw [List.cons_append]
      congr 1
      · exact embedFold_untouched nlsb P out s bits p hpP
      · exact ih out s bits hnodup' (fun q hq => hlt q (List.mem_cons_of_mem p hq))

theorem usablePositions_length (regs : List (Nat × Nat)) :
    (usablePositions regs).length = (regs.map fun r => r.2 - r.1).sum := by
  unfold usablePositions
  simp [List.length_flatMap, Function.comp_def]

theorem mem_usablePositions {regs : List (Nat × Nat)} {q : Nat} :
    q ∈ usablePositions regs ↔ ∃ r ∈ regs, r.1 ≤ q ∧ q < r.1 + (r.2 - r.1) := by
  unfold usablePositions
  constructor
  · intro h
    rcases List.mem_flatMap.mp h with ⟨r, hr, hq⟩
    exact ⟨r, hr, List.mem_range'_1.mp hq⟩
  · rintro ⟨r, hr, h1, h2⟩
    exact List.mem_flatMap.mpr ⟨r, hr, List.mem_range'_1.mpr ⟨h1, h2⟩⟩

theorem usablePositions_sorted (regs : List (Nat × Nat))
    (hchain : List.Pairwise (fun r r' : Nat × Nat => r.2 ≤ r'.1) regs) :
    List.Pairwise (· < ·) (usablePositions regs) := by
  unfold usablePositions
  induction regs with
  | nil => simp
  | cons r rs ih =>
    rw [List.flatMap_cons]
    apply List.pairwise_append.mpr
    refine ⟨?_, ih (List.pairwise_cons.mp hchain).2, ?_⟩
    · have : ∀ s n, List.Pairwise (· < ·) (List.range' s n) := by
        intro s n
        induction n generalizing s with
        | zero => simp
        | succ n ihn =>
          rw [List.range'_succ]
          refine List.Pairwise.cons ?_ (ihn (s + 1))
          intro b hb
          have := List.mem_range'_1.mp hb
          omega
      exact this r.1 (r.2 - r.1)
    · intro a ha b hb
      rcases List.mem_flatMap.mp hb with ⟨r', hr', hb'⟩
      have h1 := List.mem_range'_1.mp ha
      have h2 := List.mem_range'_1.mp hb'
      have h3 : r.2 ≤ r'.1 := (List.pairwise_cons.mp hchain).1 r' hr'
      omega

theorem usablePositions_nodup (regs : List (Nat × Nat))
    (hchain : List.Pairwise (fun r r' : Nat × Nat => r.2 ≤ r'.1) regs) :
    (usablePositions regs).Nodup :=
  (usablePositions_sorted regs hchain).imp Nat.ne_of_lt

theorem drop_take_eq_map_range' (mp3 : List Nat) :
    ∀ len s, s + len ≤ mp3.length →
      (mp3.drop s).take len = (List.range' s len).map (fun p => mp3.getD p 0) := by
  intro len
  induction len with
  | zero => simp
  | succ len ih =>
    intro s hs
    have hslt : s < mp3.length := by omega
    rw [List.range'_succ, List.map_cons, List.drop_eq_getElem_cons hslt,
      List.take_succ_cons]
    congr 1
    · simp [List.getD_eq_getElem?_getD, List.getElem?_eq_getElem hslt]
    · exact ih (s + 1) (by omega)

theorem streamOf_eq_map (mp3 : List Nat) (regs : List (Nat × Nat))
    (hb : ∀ r ∈ regs, r.1 ≤ mp3.length ∧ r.2 ≤ mp3.length) :
    streamOf mp3 regs = (usablePositions regs).map (fun p => mp3.getD p 0) := by
  unfold streamOf usablePositions
  induction regs with
  | nil => rfl
  | cons r rs ih =>
    simp only [List.flatMap_cons, List.map_append]
    congr 1
    · refine drop_take_eq_map_range' mp3 (r.2 - r.1) r.1 ?_
      have h1 := (hb r (by simp)).1
      have h2 := (hb r (by simp)).2
      omega
    · exact ih fun r' hr' => hb r' (by simp [hr'])

set_option maxHeartbeats 1000000 in
theorem embedFile_eq_ok {mp3 payload meta_json kb : List Nat} {seed nlsb : Nat}
    {encrypt random_start : Bool} {st : List Nat}
    (h : embedFile mp3 payload meta_json kb seed nlsb encrypt random_start = .ok st) :
    (1 ≤ nlsb ∧ nlsb ≤ 4) ∧
    (embedData payload kb encrypt).length < 2 ^ 32 ∧
    meta_json.length < 2 ^ 32 ∧
    collectFramesAndRegions mp3 ≠ [] ∧
    (bytesToBits (containerMessage payload meta_json kb nlsb encrypt random_start)).length ≤
      ((((collectFramesAndRegions mp3).map fun r => r.2 - r.1).sum -
        (if random_start then
          randrange seed (((collectFramesAndRegions mp3).map fun r => r.2 - r.1).sum)
         else 0)) * nlsb) ∧
    st = (embedCore mp3 (collectFramesAndRegions mp3)
      (bytesToBits (containerMessage payload meta_json kb nlsb encrypt random_start))
      (if random_start then
        randrange seed (((collectFramesAndRegions mp3).map fun r => r.2 - r.1).sum)
       else 0) nlsb).1 := by
  simp only [embedFile] at h
  split at h
  case isTrue => exact Except.noConfusion h
  case isFalse h1 =>
  split at h
  case isTrue => exact Except.noConfusion h
  case isFalse h2 =>
  split at h
  case isTrue => exact Except.noConfusion h
  case isFalse h3 =>
  by_cases h4 : ((((collectFramesAndRegions mp3).map fun r => r.2 - r.1).sum -
      (if random_start then
        randrange seed (((collectFramesAndRegions mp3).map fun r => r.2 - r.1).sum)
       else 0)) * nlsb) <
      (bytesToBits (containerMessage payload meta_json kb nlsb encrypt random_start)).length
  case pos =>
    rw [if_pos h4] at h
    exact Except.noConfusion h
  case neg =>
  rw [if_neg h4] at h
  by_cases h5 : (embedCore mp3 (collectFramesAndRegions mp3)
      (bytesToBits (containerMessage payload meta_json kb nlsb encrypt random_start))
      (if random_start then
        randrange seed (((collectFramesAndRegions mp3).map fun r => r.2 - r.1).sum)
       else 0) nlsb).2.2 = []
  · rw [if_neg (fun hc => hc h5)] at h
    refine ⟨by omega, by omega, by omega, h3, by omega, ?_⟩
    exact (Except.ok.inj h).symm
  · rw [if_pos h5] at h
    exact Except.noConfusion h

set_option maxHeartbeats 1000000 in
theorem embedFile_ok_of {mp3 payload meta_json kb : List Nat} {seed nlsb : Nat}
    {encrypt random_start : Bool}
    (hn : 1 ≤ nlsb ∧ nlsb ≤ 4)
    (hd : (embedData payload kb encrypt).length < 2 ^ 32)
    (hm : meta_json.length < 2 ^ 32)
    (hr : collectFramesAndRegions mp3 ≠ [])
    (hcap : (bytesToBits (containerMessage payload meta_json kb nlsb encrypt random_start)).length ≤
      ((((collectFramesAndRegions mp3).map fun r => r.2 - r.1).sum -
        (if random_start then
          randrange seed (((collectFramesAndRegions mp3).map fun r => r.2 - r.1).sum)
         else 0)) * nlsb)) :
    embedFile mp3 payload meta_json kb seed nlsb encrypt random_start =
      .ok (embedCore mp3 (collectFramesAndRegions mp3)
        (bytesToBits (containerMessage payload meta_json kb nlsb encrypt random_start))
        (if random_start then
          randrange seed (((collectFramesAndRegions mp3).map fun r => r.2 - r.1).sum)
         else 0) nlsb).1 := by
  have hleft : (embedCore mp3 (collectFramesAndRegions mp3)
      (bytesToBits (containerMessage payload meta_json kb nlsb encrypt random_start))
      (if random_start then
        randrange seed (((collectFramesAndRegions mp3).map fun r => r.2 - r.1).sum)
       else 0) nlsb).2.2 = [] := by
    unfold embedCore
    rw [embedFold_leftover]
    apply List.drop_eq_nil_of_le
    rw [usablePositions_length]
    calc (bytesToBits (containerMessage payload meta_json kb nlsb encrypt random_start)).length
        ≤ _ := hcap
      _ ≤ _ := by
        apply Nat.mul_le_mul_right
        omega
  simp only [embedFile]
  rw [if_neg (by omega), if_neg (by omega), if_neg hr, if_neg (by omega),
    if_neg (by simp [hleft])]

theorem getD_lt_of_forall {l : List Nat} (h : ∀ b ∈ l, b < 256) (p : Nat) :
    l.getD p 0 < 256 := by
  rw [List.getD_eq_getElem?_getD]
  cases hx : l[p]? with
  | none => simp
  | some x =>
    have hm : x ∈ l := List.getElem?_mem hx
    simpa using h x hm

theorem embedFold_shift (nlsb : Nat) (hn : 1 ≤ nlsb ∧ nlsb ≤ 4) (P : List Nat)
    (out : List Nat) (skip : Nat) (bits : List Nat)
    (hout : ∀ b ∈ out, b < 256) (hbits : ∀ b ∈ bits, b < 2) :
    ∀ q, ((P.foldl (embedStep nlsb) (out, skip, bits)).1).getD q 0 >>> nlsb =
      out.getD q 0 >>> nlsb := by
  induction P generalizing out skip bits with
  | nil => intro q; rfl
  | cons p P ih =>
    intro q
    show ((P.foldl (embedStep nlsb) (embedStep nlsb (out, skip, bits) p)).1).getD q 0 >>> nlsb
      = _
    rcases skip with _ | s
    · by_cases hb : bits = []
      · rw [show embedStep nlsb (out, 0, bits) p = (out, 0, bits) by simp [embedStep, hb]]
        exact ih out 0 bits hout hbits q
      · rw [show embedStep nlsb (out, 0, bits) p =
            (out.set p ((out.getD p 0 &&& writeMask nlsb) ||| groupVal (bits.take nlsb)),
             0, bits.drop nlsb) by simp [embedStep, hb]]
        have hvlt : (out.getD p 0 &&& writeMask nlsb) ||| groupVal (bits.take nlsb) < 256 :=
          writeByte_lt nlsb (by omega) (out.getD p 0) (getD_lt_of_forall hout p)
            (groupVal (bits.take nlsb)) (groupVal_take_lt nlsb bits hbits)
        have hout2 : ∀ b ∈ out.set p
            ((out.getD p 0 &&& writeMask nlsb) ||| groupVal (bits.take nlsb)), b < 256 :=
          fun b hbm => (List.mem_or_eq_of_mem_set hbm).elim (hout b) fun he => he ▸ hvlt
        have hdrop : ∀ b ∈ bits.drop nlsb, b < 2 :=
          fun b hbm => hbits b (List.mem_of_mem_drop hbm)
        rw [ih _ 0 (bits.drop nlsb) hout2 hdrop q]
        by_cases hpq : p = q
        · subst hpq
          by_cases hplen : p < out.length
          · rw [getD_set_self hplen]
            exact writeByte_shift nlsb (by omega) (out.getD p 0)
              (getD_lt_of_forall hout p) (groupVal (bits.take nlsb))
              (groupVal_take_lt nlsb bits hbits)
          · rw [List.set_eq_of_length_le (by omega)]
        · rw [getD_set_ne hpq]
    · rw [show embedStep nlsb (out, s + 1, bits) p = (out, s, bits) by simp [embedStep]]
      exact ih out s bits hout hbits q

/-! ### Helper lemmas: bitstream reader -/

theorem readerBits_emit (br : BitStreamReader) (h8 : 8 ≤ br.bits_in_buf) :
    readerBits br = natBits 8 (br.bitbuf >>> (br.bits_in_buf - 8)) ++
      readerBits { br with bits_in_buf := br.bits_in_buf - 8 } := by
  unfold readerBits
  dsimp only
  have hsplit := natBits_append 8 (br.bits_in_buf - 8) br.bitbuf
  rw [show (8 : Nat) + (br.bits_in_buf - 8) = br.bits_in_buf by omega] at hsplit
  rw [hsplit, List.append_assoc]

theorem readerBits_load (br : BitStreamReader) (hmask : br.mask = (1 <<< br.n) - 1)
    (htot : br.total = br.stream.length) (hpos : br.pos < br.total) :
    readerBits { br with
      bitbuf := (br.bitbuf <<< br.n) ||| (br.stream.getD br.pos 0 &&& br.mask),
      bits_in_buf := br.bits_in_buf + br.n,
      pos := br.pos + 1 } = readerBits br := by
  unfold readerBits
  dsimp only
  have hv : br.stream.getD br.pos 0 &&& br.mask < 2 ^ br.n := by
    have h1 : br.stream.getD br.pos 0 &&& br.mask ≤ br.mask := Nat.and_le_right
    have h2 : (1 : Nat) <<< br.n = 2 ^ br.n := by
      rw [Nat.shiftLeft_eq, Nat.one_mul]
    have h3 : (0 : Nat) < 2 ^ br.n := Nat.pos_pow_of_pos _ (by omega)
    omega
  rw [natBits_append br.bits_in_buf br.n _, shiftLeft_or_shiftRight hv]
  have hX : natBits br.n ((br.bitbuf <<< br.n) ||| (br.stream.getD br.pos 0 &&& br.mask)) =
      natBits br.n (br.stream.getD br.pos 0 &&& br.mask) := by
    rw [← natBits_mod br.n ((br.bitbuf <<< br.n) ||| (br.stream.getD br.pos 0 &&& br.mask)),
      shiftLeft_or_mod hv]
  rw [hX]
  have hdrop : br.stream.drop br.pos =
      br.stream.getD br.pos 0 :: br.stream.drop (br.pos + 1) := by
    rw [List.drop_eq_getElem_cons (by omega : br.pos < br.stream.length)]
    congr 1
    simp [List.getD_eq_getElem?_getD, List.getElem?_eq_getElem
      (by omega : br.pos < br.stream.length)]
  rw [hdrop, List.flatMap_cons, ← List.append_assoc]

theorem readerBits_exhaust_len (br : BitStreamReader)
    (htot : br.total = br.stream.length) (hpos : br.total ≤ br.pos)
    (hbib : br.bits_in_buf < 8) : (readerBits br).length < 8 := by
  unfold readerBits
  rw [List.length_append, natBits_length,
    List.drop_eq_nil_of_le (by omega : br.stream.length ≤ br.pos)]
  simpa using hbib

theorem readFuel_spec : ∀ fuel (br : BitStreamReader) (k : Nat) (out : List Nat),
    (k - out.length) + (br.total - br.pos) < fuel →
    br.total = br.stream.length →
    br.mask = (1 <<< br.n) - 1 →
    (readFuel fuel br k out).1 =
      out ++ (bitsToBytes (readerBits br)).take (k - out.length) ∧
    readerBits (readFuel fuel br k out).2 =
      (readerBits br).drop
        (8 * ((bitsToBytes (readerBits br)).take (k - out.length)).length) ∧
    (readFuel fuel br k out).2.stream = br.stream ∧
    (readFuel fuel br k out).2.n = br.n ∧
    (readFuel fuel br k out).2.mask = br.mask ∧
    (readFuel fuel br k out).2.total = br.total := by
  intro fuel
  induction fuel with
  | zero => intro br k out hfuel htot hmask; omega
  | succ fuel ih =>
    intro br k out hfuel htot hmask
    by_cases hko : out.length < k
    case neg =>
      have hm0 : k - out.length = 0 := by omega
      simp only [readFuel, if_neg hko, hm0, List.take_zero, List.append_nil,
        List.length_nil, Nat.mul_zero, List.drop_zero]
      simp
    case pos =>
      by_cases hbib : br.bits_in_buf < 8
      case pos =>
        by_cases hpos : br.total ≤ br.pos
        case pos =>
          have hbb : bitsToBytes (readerBits br) = [] :=
            bitsToBytes_nil_of_short _ (readerBits_exhaust_len br htot hpos hbib)
          simp only [readFuel, if_pos hko, if_pos hbib, if_pos hpos, hbb,
            List.take_nil, List.append_nil, List.length_nil, Nat.mul_zero,
            List.drop_zero]
          simp
        case neg =>
          have hload := readerBits_load br hmask htot (by omega)
          have hres := ih { br with
              bitbuf := (br.bitbuf <<< br.n) ||| (br.stream.getD br.pos 0 &&& br.mask),
              bits_in_buf := br.bits_in_buf + br.n,
              pos := br.pos + 1 } k out (by dsimp only; omega) (by dsimp only; exact htot)
            (by dsimp only; exact hmask)
          rw [hload] at hres
          simp only [readFuel, if_pos hko, if_pos hbib, if_neg hpos]
          exact hres
      case neg =>
        have h8 : 8 ≤ br.bits_in_buf := by omega
        have hsplit := readerBits_emit br h8
        have hbb : bitsToBytes (readerBits br) =
            ((br.bitbuf >>> (br.bits_in_buf - 8)) % 256) ::
              bitsToBytes (readerBits { br with bits_in_buf := br.bits_in_buf - 8 }) := by
          rw [hsplit, bitsToBytes_natBits8]
        have hdrop8 : (readerBits br).drop 8 =
            readerBits { br with bits_in_buf := br.bits_in_buf - 8 } := by
          rw [hsplit, List.drop_append_of_le_length (by rw [natBits_length]),
            List.drop_eq_nil_of_le (le_of_eq (natBits_length 8 _)), List.nil_append]
        have hbyte : (br.bitbuf >>> (br.bits_in_buf - 8)) &&& 0xFF =
            (br.bitbuf >>> (br.bits_in_buf - 8)) % 256 := by
          rw [show (0xFF : Nat) = 2 ^ 8 - 1 by norm_num,
            Nat.and_pow_two_sub_one_eq_mod]
        have hres := ih { br with bits_in_buf := br.bits_in_buf - 8 } k
          (out ++ [(br.bitbuf >>> (br.bits_in_buf - 8)) &&& 0xFF])
          (by simp only [List.length_append, List.length_cons, List.length_nil]; omega)
          (by dsimp only; exact htot) (by dsimp only; exact hmask)
        simp only [readFuel, if_pos hko, if_neg hbib]
        obtain ⟨hr1, hr2, hr3, hr4, hr5, hr6⟩ := hres
        have hm1 : k - (out ++ [(br.bitbuf >>> (br.bits_in_buf - 8)) &&& 0xFF]).length =
            k - out.length - 1 := by
          simp only [List.length_append, List.length_cons, List.length_nil]
          omega
        refine ⟨?_, ?_, hr3, hr4, hr5, hr6⟩
        · rw [hr1, hm1, hbb]
          rw [show k - out.length = (k - out.length - 1) + 1 by omega]
          rw [List.take_succ_cons, List.append_assoc]
          rw [hbyte]
          rfl
        · rw [hr2, hm1, hbb]
          rw [show k - out.length = (k - out.length - 1) + 1 by omega]
          rw [List.take_succ_cons]
          rw [List.length_cons]
          rw [← hdrop8]
          rw [List.drop_drop]
          congr 1
          ring_nf
          rw [show 1 + (k - out.length - 1) - 1 = k - out.length - 1 by omega]

theorem read_spec (br : BitStreamReader) (k : Nat)
    (htot : br.total = br.stream.length) (hmask : br.mask = (1 <<< br.n) - 1) :
    (br.read k).1 = (bitsToBytes (readerBits br)).take k ∧
    readerBits (br.read k).2 =
      (readerBits br).drop (8 * ((bitsToBytes (readerBits br)).take k).length) ∧
    (br.read k).2.stream = br.stream ∧ (br.read k).2.n = br.n ∧
    (br.read k).2.mask = br.mask ∧ (br.read k).2.total = br.total := by
  have h := readFuel_spec (k + br.total + 1) br k [] (by omega) htot hmask
  simpa using h

theorem readerBits_start (stream : List Nat) (off n : Nat) :
    readerBits (BitStreamReader.start stream off n) =
      (stream.drop off).flatMap fun b => natBits n (b &&& ((1 <<< n) - 1)) := by
  unfold readerBits BitStreamReader.start
  simp [natBits]

theorem flatMap_natBits_length (n : Nat) (l : List Nat) (f : Nat → Nat) :
    (l.flatMap fun b => natBits n (f b)).length = l.length * n := by
  induction l with
  | nil => simp
  | cons b t ih =>
    rw [List.flatMap_cons, List.length_append, natBits_length, ih]
    simp [List.length_cons]
    ring

/-! ### Helper lemmas: scan stability

The scanner only ever reads bytes that lie outside every region it emits
(headers are parsed at frame starts and at resynchronisation points, both of
which precede the region of the frame that contains them), so any buffer that
agrees with the cover outside the scanned regions scans identically. -/

theorem getElem?_eq_of_getD {l l' : List Nat} (hlen : l'.length = l.length) (i : Nat)
    (h : l'.getD i 0 = l.getD i 0) : l'[i]? = l[i]? := by
  by_cases hi : i < l.length
  · rw [List.getElem?_eq_getElem (by omega), List.getElem?_eq_getElem hi]
    rw [← List.getD_eq_getElem l 0 hi, ← List.getD_eq_getElem l' 0 (by omega)]
    rw [h]
  · rw [List.getElem?_eq_none (by omega), List.getElem?_eq_none (by omega)]

theorem parseHeaderAt_congr (mp3 mp3' : List Nat) (off : Nat)
    (hlen : mp3'.length = mp3.length)
    (hb : ∀ i, i < 4 → mp3'.getD (off + i) 0 = mp3.getD (off + i) 0) :
    parseHeaderAt mp3' off = parseHeaderAt mp3 off := by
  have h0 : mp3'.getD off 0 = mp3.getD off 0 := by
    have := hb 0 (by omega)
    simpa using this
  have h1 := hb 1 (by omega)
  have h2 := hb 2 (by omega)
  have h3 := hb 3 (by omega)
  simp only [parseHeaderAt, hlen, h0, h1, h2, h3]

theorem collectFuel_stable (mp3 mp3' : List Nat) (hlen : mp3'.length = mp3.length)
    (R : List (Nat × Nat))
    (hagree : ∀ p, (∀ r ∈ R, p < r.1 ∨ r.2 ≤ p) → mp3'.getD p 0 = mp3.getD p 0) :
    ∀ fuel off pre, R = pre ++ collectFuel mp3 fuel off →
      (∀ r ∈ pre, r.2 ≤ off) →
      collectFuel mp3' fuel off = collectFuel mp3 fuel off := by
  intro fuel
  induction fuel with
  | zero => intro off pre hR hpre; rfl
  | succ fuel ih =>
    intro off pre hR hpre
    have hbytes : ∀ i, i < 4 → mp3'.getD (off + i) 0 = mp3.getD (off + i) 0 := by
      intro i hi
      apply hagree
      intro r hr
      rw [hR] at hr
      rcases List.mem_append.mp hr with hmem | hmem
      · exact Or.inr (by have := hpre r hmem; omega)
      · have := collectFuel_bounds mp3 (fuel + 1) off r hmem
        exact Or.inl (by omega)
    have hparse := parseHeaderAt_congr mp3 mp3' off hlen hbytes
    simp only [collectFuel, hlen, hparse]
    split
    case isFalse => rfl
    case isTrue hoff =>
    cases hp : parseHeaderAt mp3 off with
    | none =>
      have hstep : collectFuel mp3 (fuel + 1) off = collectFuel mp3 fuel (off + 1) := by
        simp only [collectFuel, if_pos hoff, hp]
      exact ih (off + 1) pre (by rw [hR, hstep]) (fun r hr => by have := hpre r hr; omega)
    | some hdr =>
      dsimp only
      split
      case isTrue => rfl
      case isFalse hfit =>
      have hstep : collectFuel mp3 (fuel + 1) off =
          (if off + 4 + hdr.side_len < min (off + hdr.frame_len)
              (off + 4 + hdr.side_len + maxMainBytesPerFrame) then
            (off + 4 + hdr.side_len, min (off + hdr.frame_len)
              (off + 4 + hdr.side_len + maxMainBytesPerFrame)) ::
              collectFuel mp3 fuel (off + hdr.frame_len)
          else collectFuel mp3 fuel (off + hdr.frame_len)) := by
        simp only [collectFuel, if_pos hoff, hp, if_neg hfit]
      split
      case isTrue hse =>
        have htail := ih (off + hdr.frame_len)
          (pre ++ [(off + 4 + hdr.side_len, min (off + hdr.frame_len)
            (off + 4 + hdr.side_len + maxMainBytesPerFrame))])
          (by rw [hR, hstep, if_pos hse, List.append_assoc, List.singleton_append])
          (by
            intro r hr
            rcases List.mem_append.mp hr with hmem | hmem
            · have := hpre r hmem
              omega
            · rcases List.mem_singleton.mp hmem with rfl
              have : min (off + hdr.frame_len)
                  (off + 4 + hdr.side_len + maxMainBytesPerFrame) ≤ off + hdr.frame_len :=
                Nat.min_le_left _ _
              simp only []
              omega)
        rw [htail]
      case isFalse hse =>
        have htail := ih (off + hdr.frame_len) pre
          (by rw [hR, hstep, if_neg hse])
          (fun r hr => by have := hpre r hr; omega)
        rw [htail]

theorem collectFramesAndRegions_stable (mp3 mp3' : List Nat)
    (hlen : mp3'.length = mp3.length)
    (hagree : ∀ p, (∀ r ∈ collectFramesAndRegions mp3, p < r.1 ∨ r.2 ≤ p) →
      mp3'.getD p 0 = mp3.getD p 0) :
    collectFramesAndRegions mp3' = collectFramesAndRegions mp3 := by
  have hlow : ∀ p, p < 10 → mp3'.getD p 0 = mp3.getD p 0 := by
    intro p hp
    apply hagree
    intro r hr
    have := collectFuel_bounds mp3 (mp3.length + 1) (skipId3v2 mp3) r hr
    -- every region starts at least 13 bytes past the scan start
    exact Or.inl (by omega)
  have hskip : skipId3v2 mp3' = skipId3v2 mp3 := by
    unfold skipId3v2
    have htake : mp3'.take 3 = mp3.take 3 := by
      apply List.ext_getElem?
      intro i
      rw [List.getElem?_take, List.getElem?_take]
      by_cases hi : i < 3
      · rw [if_pos hi, if_pos hi]
        exact getElem?_eq_of_getD hlen i (hlow i (by omega))
      · rw [if_neg hi, if_neg hi]
    have hslice : (mp3'.drop 6).take 4 = (mp3.drop 6).take 4 := by
      apply List.ext_getElem?
      intro i
      rw [List.getElem?_take, List.getElem?_take]
      by_cases hi : i < 4
      · rw [if_pos hi, if_pos hi, List.getElem?_drop, List.getElem?_drop]
        exact getElem?_eq_of_getD hlen (6 + i) (hlow (6 + i) (by omega))
      · rw [if_neg hi, if_neg hi]
    rw [htake, hslice, hlen]
  unfold collectFramesAndRegions
  rw [hskip, hlen]
  exact collectFuel_stable mp3 mp3' hlen (collectFramesAndRegions mp3) hagree
    (mp3.length + 1) (skipId3v2 mp3) [] rfl (by simp)

/-! ### Helper lemmas: header round trip -/

theorem or_eq_add_of_dvd {k a b : Nat} (ha : 2 ^ k ∣ a) (hb : b < 2 ^ k) :
    a ||| b = a + b := by
  obtain ⟨c, rfl⟩ := ha
  rw [← Nat.mul_add_lt_is_or hb c]

theorem and_255_eq_mod (y : Nat) : y &&& 0xFF = y % 256 := by
  rw [show (0xFF : Nat) = 2 ^ 8 - 1 by norm_num, Nat.and_pow_two_sub_one_eq_mod]

theorem fromBE4_be4 {x : Nat} (h : x < 2 ^ 32) : fromBE4 (be4 x) = x := by
  unfold fromBE4 be4
  simp only [List.getD_cons_zero, List.getD_cons_succ]
  rw [and_255_eq_mod, and_255_eq_mod, and_255_eq_mod, and_255_eq_mod,
    Nat.shiftRight_eq_div_pow, Nat.shiftRight_eq_div_pow, Nat.shiftRight_eq_div_pow,
    Nat.shiftLeft_eq, Nat.shiftLeft_eq, Nat.shiftLeft_eq]
  have hm : ∀ y : Nat, y % 256 < 256 := fun y => Nat.mod_lt _ (by norm_num)
  set a := x / 2 ^ 24 % 256 with ha
  set b := x / 2 ^ 16 % 256 with hb
  set c := x / 2 ^ 8 % 256 with hc
  have hab : a < 256 := hm _
  have hbb : b < 256 := hm _
  have hcb : c < 256 := hm _
  have e1 : (a * 2 ^ 24) ||| (b * 2 ^ 16) = a * 2 ^ 24 + b * 2 ^ 16 :=
    or_eq_add_of_dvd (k := 24) ⟨a, by ring⟩ (by omega)
  have e2 : (a * 2 ^ 24 + b * 2 ^ 16) ||| (c * 2 ^ 8) =
      a * 2 ^ 24 + b * 2 ^ 16 + c * 2 ^ 8 :=
    or_eq_add_of_dvd (k := 16) ⟨a * 2 ^ 8 + b, by ring⟩ (by omega)
  have e3 : (a * 2 ^ 24 + b * 2 ^ 16 + c * 2 ^ 8) ||| (x % 256) =
      a * 2 ^ 24 + b * 2 ^ 16 + c * 2 ^ 8 + x % 256 :=
    or_eq_add_of_dvd (k := 8) ⟨a * 2 ^ 16 + b * 2 ^ 8 + c, by ring⟩
      (by have := hm x; omega)
  rw [e1, e2, e3]
  omega

theorem crc32Incr_nil (c : Nat) : crc32Incr c [] = c := by
  unfold crc32Incr crc32Raw
  rw [List.foldl_nil, Nat.xor_assoc, Nat.xor_self, Nat.xor_zero]

theorem crc32_and_mask (l : List Nat) : crc32 l &&& 0xFFFFFFFF = crc32 l := by
  rw [show (0xFFFFFFFF : Nat) = 2 ^ 32 - 1 by norm_num,
    Nat.and_pow_two_sub_one_eq_mod, Nat.mod_eq_of_lt (crc32_lt l)]

theorem embedFlags_bit0 (encrypt random_start : Bool) :
    ((embedFlags encrypt random_start &&& 0xFF) &&& FLAG_ENCRYPTED ≠ 0) ↔ encrypt = true := by
  cases encrypt <;> cases random_start <;> simp [embedFlags, FLAG_ENCRYPTED, FLAG_RANDOM_START]

theorem vigenere256_encrypt_length (data kb : List Nat) :
    (vigenere256_encrypt data kb).length = data.length := by
  unfold vigenere256_encrypt
  split
  · rfl
  · simp

theorem embedData_length (payload kb : List Nat) (encrypt : Bool) :
    (embedData payload kb encrypt).length = payload.length := by
  unfold embedData
  split
  · exact vigenere256_encrypt_length payload kb
  · rfl

/-- The fixed 22-byte header in front of metadata and payload. -/
theorem containerMessage_decomp (payload meta_json kb : List Nat) (nlsb : Nat)
    (encrypt random_start : Bool) :
    containerMessage payload meta_json kb nlsb encrypt random_start =
      (MAGIC ++ [embedFlags encrypt random_start &&& 0xFF] ++ [nlsb &&& 0xFF]
        ++ be4 (embedData payload kb encrypt).length
        ++ be4 (crc32 (embedData payload kb encrypt) &&& 0xFFFFFFFF)
        ++ be4 meta_json.length ++ [0, 0]) ++
      (meta_json ++ embedData payload kb encrypt) := by
  unfold containerMessage
  simp [List.append_assoc]

theorem fixedHeader_length (payload meta_json kb : List Nat) (nlsb : Nat)
    (encrypt random_start : Bool) :
    (MAGIC ++ [embedFlags encrypt random_start &&& 0xFF] ++ [nlsb &&& 0xFF]
      ++ be4 (embedData payload kb encrypt).length
      ++ be4 (crc32 (embedData payload kb encrypt) &&& 0xFFFFFFFF)
      ++ be4 meta_json.length ++ [0, 0]).length = 22 := by
  simp [MAGIC, be4]

theorem writeBytesSpec_bits (nlsb : Nat) (hn : 1 ≤ nlsb ∧ nlsb ≤ 4) :
    ∀ (origs bits : List Nat), nlsb ∣ bits.length → (∀ b ∈ bits, b < 2) →
      (∀ o ∈ origs, o < 256) → bits.length ≤ origs.length * nlsb →
      ∃ rest, (writeBytesSpec nlsb origs bits).flatMap
          (fun b => natBits nlsb (b &&& ((1 <<< nlsb) - 1))) = bits ++ rest := by
  intro origs
  induction origs with
  | nil =>
    intro bits hdvd hb ho hlen
    have hbe : bits = [] := by
      apply List.eq_nil_of_length_eq_zero
      simp only [List.length_nil, Nat.zero_mul] at hlen
      omega
    subst hbe
    exact ⟨[], by simp [writeBytesSpec]⟩
  | cons o os ih =>
    intro bits hdvd hb ho hlen
    by_cases hbe : bits = []
    · subst hbe
      refine ⟨(o :: os).flatMap fun b => natBits nlsb (b &&& ((1 <<< nlsb) - 1)), ?_⟩
      rw [writeBytesSpec_nil_bits, List.nil_append]
    · have hpos : 0 < bits.length := List.length_pos.mpr hbe
      have hge := Nat.le_of_dvd hpos hdvd
      have hgrouplen : (bits.take nlsb).length = nlsb := by
        rw [List.length_take]
        omega
      have hv : groupVal (bits.take nlsb) < 2 ^ nlsb := groupVal_take_lt nlsb bits hb
      have hlow : ((o &&& writeMask nlsb) ||| groupVal (bits.take nlsb)) &&&
          ((1 <<< nlsb) - 1) = groupVal (bits.take nlsb) :=
        writeByte_low nlsb (by omega) o (ho o (by simp)) _ hv
      have hnb : natBits nlsb (groupVal (bits.take nlsb)) = bits.take nlsb := by
        have hh := natBits_groupVal (bits.take nlsb)
          fun x hx => hb x (List.mem_of_mem_take hx)
        rw [hgrouplen] at hh
        exact hh
      have hexp : (o :: os).length * nlsb = os.length * nlsb + nlsb := by
        simp only [List.length_cons]
        ring
      obtain ⟨rest, hrest⟩ := ih (bits.drop nlsb)
        (by rw [List.length_drop]; exact Nat.dvd_sub' hdvd (dvd_refl nlsb))
        (fun x hx => hb x (List.mem_of_mem_drop hx))
        (fun x hx => ho x (by simp [hx]))
        (by rw [List.length_drop]; rw [hexp] at hlen; omega)
      refine ⟨rest, ?_⟩
      rw [show writeBytesSpec nlsb (o :: os) bits =
          ((o &&& writeMask nlsb) ||| groupVal (bits.take nlsb)) ::
            writeBytesSpec nlsb os (bits.drop nlsb) by simp [writeBytesSpec, hbe]]
      rw [List.flatMap_cons, hlow, hnb, hrest, ← List.append_assoc,
        List.take_append_drop]

theorem payloadFuel_spec (kb : List Nat) (kbActive : Bool) (payload_len : Nat) :
    ∀ fuel written crc content (br : BitStreamReader) (D junk : List Nat),
      payload_len - written < fuel →
      written ≤ payload_len →
      br.total = br.stream.length →
      br.mask = (1 <<< br.n) - 1 →
      D.length = payload_len - written →
      bitsToBytes (readerBits br) = D ++ junk →
      (payloadFuel kb kbActive payload_len fuel br written crc content).content =
        content ++ (if kbActive then decryptChunkAt kb written D else D) ∧
      (payloadFuel kb kbActive payload_len fuel br written crc content).crc =
        crc32Incr crc D ∧
      (payloadFuel kb kbActive payload_len fuel br written crc content).completed = true ∧
      (payloadFuel kb kbActive payload_len fuel br written crc content).written =
        payload_len := by
  intro fuel
  induction fuel with
  | zero => intro written crc content br D junk hfuel hw htot hmask hD hbytes; omega
  | succ fuel ih =>
    intro written crc content br D junk hfuel hw htot hmask hD hbytes
    by_cases hlt : written < payload_len
    case neg =>
      have hw0 : written = payload_len := by omega
      have hD0 : D = [] := List.eq_nil_of_length_eq_zero (by omega)
      subst hD0
      simp only [payloadFuel, if_neg hlt]
      refine ⟨?_, ?_, by trivial, by omega⟩
      · cases kbActive <;> simp [decryptChunkAt]
      · rw [crc32Incr_nil]
    case pos =>
      have hneedD : min CHUNK (payload_len - written) ≤ D.length := by
        have := Nat.min_le_right CHUNK (payload_len - written)
        omega
      have hneed1 : 1 ≤ min CHUNK (payload_len - written) := by
        have h1 : 1 ≤ CHUNK := by norm_num [CHUNK]
        omega
      obtain ⟨hs1, hs2, hs3, hs4, hs5, hs6⟩ :=
        read_spec br (min CHUNK (payload_len - written)) htot hmask
      have hr1 : (br.read (min CHUNK (payload_len - written))).1 =
          D.take (min CHUNK (payload_len - written)) := by
        rw [hs1, hbytes, List.take_append_of_le_length hneedD]
      have hlen1 : (br.read (min CHUNK (payload_len - written))).1.length =
          min CHUNK (payload_len - written) := by
        rw [hr1, List.length_take]
        omega
      have hbytes' :
          bitsToBytes (readerBits (br.read (min CHUNK (payload_len - written))).2) =
            D.drop (min CHUNK (payload_len - written)) ++ junk := by
        rw [hs2, bitsToBytes_drop, hbytes, List.length_take, List.length_append]
        rw [show min (min CHUNK (payload_len - written)) (D.length + junk.length) =
            min CHUNK (payload_len - written) by omega]
        rw [List.drop_append_of_le_length hneedD]
      obtain ⟨ih1, ih2, ih3, ih4⟩ := ih (written + min CHUNK (payload_len - written))
        (crc32Incr crc (D.take (min CHUNK (payload_len - written))))
        (content ++ (if kbActive then
          decryptChunkAt kb written (D.take (min CHUNK (payload_len - written)))
          else D.take (min CHUNK (payload_len - written))))
        (br.read (min CHUNK (payload_len - written))).2
        (D.drop (min CHUNK (payload_len - written))) junk
        (by omega) (by omega)
        (by rw [hs6, hs3, htot])
        (by rw [hs5, hs4]; exact hmask)
        (by rw [List.length_drop]; omega) hbytes'
      simp only [payloadFuel, if_pos hlt]
      rw [if_neg (fun hc => hc hlen1), hr1]
      refine ⟨?_, ?_, ih3, ih4⟩
      · rw [ih1]
        cases kbActive
        · simp only [Bool.false_eq_true, if_false, List.append_assoc,
            List.take_append_drop]
        · simp only [if_true]
          rw [List.append_assoc]
          congr 1
          have hsplit := decryptChunkAt_append kb written
            (D.take (min CHUNK (payload_len - written)))
            (D.drop (min CHUNK (payload_len - written)))
          rw [List.take_append_drop] at hsplit
          rw [hsplit, List.length_take]
          congr 2
          omega
      · rw [ih2, crc32Incr_append, List.take_append_drop]

theorem mem_append_lt {l1 l2 : List Nat} (h1 : ∀ b ∈ l1, b < 256)
    (h2 : ∀ b ∈ l2, b < 256) : ∀ b ∈ l1 ++ l2, b < 256 := by
  intro b hb
  rcases List.mem_append.mp hb with h | h
  · exact h1 b h
  · exact h2 b h

theorem byteAdd_lt (b k : Nat) : byteAdd b k < 256 := Nat.mod_lt _ (by norm_num)

theorem vigenere256_encrypt_mem_lt (data kb : List Nat) (hd : ∀ b ∈ data, b < 256) :
    ∀ b ∈ vigenere256_encrypt data kb, b < 256 := by
  unfold vigenere256_encrypt
  split
  · exact hd
  · intro b hb
    obtain ⟨i, hi, hval⟩ := List.mem_iff_getElem.mp hb
    rw [List.getElem_mapIdx] at hval
    rw [← hval]
    exact byteAdd_lt _ _

theorem embedData_mem_lt (payload kb : List Nat) (encrypt : Bool)
    (hp : ∀ b ∈ payload, b < 256) : ∀ b ∈ embedData payload kb encrypt, b < 256 := by
  unfold embedData
  split
  · exact vigenere256_encrypt_mem_lt payload kb hp
  · exact hp

theorem be4_mem_lt (x : Nat) : ∀ b ∈ be4 x, b < 256 := by
  intro b hb
  simp only [be4, List.mem_cons, List.not_mem_nil, or_false] at hb
  rcases hb with rfl | rfl | rfl | rfl <;>
    exact Nat.lt_of_le_of_lt Nat.and_le_right (by norm_num)

theorem containerMessage_mem_lt (payload meta_json kb : List Nat) (nlsb : Nat)
    (encrypt random_start : Bool) (hp : ∀ b ∈ payload, b < 256)
    (hm : ∀ b ∈ meta_json, b < 256) :
    ∀ b ∈ containerMessage payload meta_json kb nlsb encrypt random_start, b < 256 := by
  unfold containerMessage
  have hand : ∀ y : Nat, y &&& 0xFF ≤ 255 := fun y => Nat.and_le_right
  refine mem_append_lt (mem_append_lt (mem_append_lt (mem_append_lt
    (mem_append_lt (mem_append_lt (mem_append_lt (mem_append_lt
      (by decide) ?_) ?_) (be4_mem_lt _)) (be4_mem_lt _)) (be4_mem_lt _))
    (by decide)) hm) (embedData_mem_lt payload kb encrypt hp)
  · intro b hb
    rcases List.mem_singleton.mp hb with rfl
    have := hand (embedFlags encrypt random_start)
    omega
  · intro b hb
    rcases List.mem_singleton.mp hb with rfl
    have := hand nlsb
    omega

/-- If the candidate's `(nlsb, offset)` pair lines up with the embedded
container (the low-bit stream from `offset` on starts with the container's
bits), the trial at lsb.py lines 321-377 validates and recovers the original
payload: magic/nlsb echo match, metadata parses, the CRC of the streamed
payload matches the header, and decryption (when the flags and key call for
it) undoes the embedder's encryption. -/
theorem candidateResult_success
    (jsonOK : List Nat → Bool) (resolve : List Nat → List Nat)
    (payload meta_json kb stream : List Nat) (nlsb off : Nat)
    (encrypt random_start : Bool)
    (hn : 1 ≤ nlsb ∧ nlsb ≤ 4)
    (hp : ∀ b ∈ payload, b < 256)
    (hm : ∀ b ∈ meta_json, b < 256)
    (hdl : payload.length < 2 ^ 32)
    (hml : meta_json.length < 2 ^ 32)
    (hjson : jsonOK meta_json = true)
    (hbits : ∃ rest, (stream.drop off).flatMap
          (fun b => natBits nlsb (b &&& ((1 <<< nlsb) - 1))) =
        bytesToBits (containerMessage payload meta_json kb nlsb encrypt random_start)
          ++ rest) :
    candidateResult jsonOK resolve stream kb nlsb off =
      .success (resolve meta_json) payload payload.length := by
  obtain ⟨rest, hrest⟩ := hbits
  have hmsg256 := containerMessage_mem_lt payload meta_json kb nlsb encrypt
    random_start hp hm
  have hread0 : bitsToBytes (readerBits (BitStreamReader.start stream off nlsb)) =
      containerMessage payload meta_json kb nlsb encrypt random_start ++
        bitsToBytes rest := by
    rw [readerBits_start, hrest, bitsToBytes_prefix _ _ hmsg256]
  obtain ⟨F, hFsplit, hFlen, hFtake, hFget7, hFget6, hFd8, hFd12, hFd16⟩ :
      ∃ F : List Nat,
        containerMessage payload meta_json kb nlsb encrypt random_start =
          F ++ (meta_json ++ embedData payload kb encrypt) ∧
        F.length = HEADER_LEN_FIXED ∧
        F.take 6 = MAGIC ∧
        F.getD 7 0 = nlsb ∧
        F.getD 6 0 = embedFlags encrypt random_start &&& 0xFF ∧
        (F.drop 8).take 4 = be4 (embedData payload kb encrypt).length ∧
        (F.drop 12).take 4 =
          be4 (crc32 (embedData payload kb encrypt) &&& 0xFFFFFFFF) ∧
        (F.drop 16).take 4 = be4 meta_json.length := by
    refine ⟨MAGIC ++ [embedFlags encrypt random_start &&& 0xFF] ++ [nlsb &&& 0xFF]
      ++ be4 (embedData payload kb encrypt).length
      ++ be4 (crc32 (embedData payload kb encrypt) &&& 0xFFFFFFFF)
      ++ be4 meta_json.length ++ [0, 0],
      containerMessage_decomp payload meta_json kb nlsb encrypt random_start,
      rfl, rfl, ?_, rfl, rfl, rfl, rfl⟩
    show nlsb &&& 0xFF = nlsb
    rw [and_255_eq_mod]
    exact Nat.mod_eq_of_lt (by omega)
  have hdatalen : (embedData payload kb encrypt).length = payload.length :=
    embedData_length payload kb encrypt
  obtain ⟨ha1, ha2, ha3, ha4, ha5, ha6⟩ :=
    read_spec (BitStreamReader.start stream off nlsb) HEADER_LEN_FIXED rfl rfl
  have hfix : ((BitStreamReader.start stream off nlsb).read HEADER_LEN_FIXED).1 =
      F := by
    rw [ha1, hread0, hFsplit, List.append_assoc, ← hFlen, List.take_left]
  have htake22len : ((bitsToBytes (readerBits (BitStreamReader.start stream off
      nlsb))).take HEADER_LEN_FIXED).length = HEADER_LEN_FIXED := by
    rw [hread0, hFsplit, List.length_take]
    simp only [List.length_append, hFlen]
    omega
  have hread1 : bitsToBytes (readerBits ((BitStreamReader.start stream off
      nlsb).read HEADER_LEN_FIXED).2) =
      (meta_json ++ embedData payload kb encrypt) ++ bitsToBytes rest := by
    rw [ha2, bitsToBytes_drop, htake22len, hread0, hFsplit, List.append_assoc,
      ← hFlen, List.drop_left]
  have htot2 : ((BitStreamReader.start stream off nlsb).read
      HEADER_LEN_FIXED).2.total = ((BitStreamReader.start stream off
      nlsb).read HEADER_LEN_FIXED).2.stream.length := by
    rw [ha6, ha3]
    rfl
  have hmask2 : ((BitStreamReader.start stream off nlsb).read
      HEADER_LEN_FIXED).2.mask = (1 <<< ((BitStreamReader.start stream off
      nlsb).read HEADER_LEN_FIXED).2.n) - 1 := by
    rw [ha5, ha4]
    rfl
  obtain ⟨hb1, hb2, hb3, hb4, hb5, hb6⟩ :=
    read_spec ((BitStreamReader.start stream off nlsb).read HEADER_LEN_FIXED).2
      meta_json.length htot2 hmask2
  have hmeta : (((BitStreamReader.start stream off nlsb).read
      HEADER_LEN_FIXED).2.read meta_json.length).1 = meta_json := by
    rw [hb1, hread1, List.append_assoc, List.take_left]
  have htakemlen : ((bitsToBytes (readerBits ((BitStreamReader.start stream off
      nlsb).read HEADER_LEN_FIXED).2)).take meta_json.length).length =
      meta_json.length := by
    rw [hread1, List.length_take]
    simp only [List.length_append]
    omega
  have hread2 : bitsToBytes (readerBits (((BitStreamReader.start stream off
      nlsb).read HEADER_LEN_FIXED).2.read meta_json.length).2) =
      embedData payload kb encrypt ++ bitsToBytes rest := by
    rw [hb2, bitsToBytes_drop, htakemlen, hread1, List.append_assoc,
      List.drop_left]
  have hple : fromBE4 ((F.drop 8).take 4) =
      (embedData payload kb encrypt).length := by
    rw [hFd8]
    exact fromBE4_be4 (by rw [hdatalen]; exact hdl)
  have hcrceq : fromBE4 ((F.drop 12).take 4) =
      crc32 (embedData payload kb encrypt) := by
    rw [hFd12, fromBE4_be4 (Nat.lt_of_le_of_lt Nat.and_le_right (by norm_num)),
      crc32_and_mask]
  have hmle : fromBE4 ((F.drop 16).take 4) = meta_json.length := by
    rw [hFd16]
    exact fromBE4_be4 hml
  have htot3 : (((BitStreamReader.start stream off nlsb).read
      HEADER_LEN_FIXED).2.read meta_json.length).2.total =
      (((BitStreamReader.start stream off nlsb).read
      HEADER_LEN_FIXED).2.read meta_json.length).2.stream.length := by
    rw [hb6, hb3]
    exact htot2
  have hmask3 : (((BitStreamReader.start stream off nlsb).read
      HEADER_LEN_FIXED).2.read meta_json.length).2.mask =
      (1 <<< (((BitStreamReader.start stream off nlsb).read
      HEADER_LEN_FIXED).2.read meta_json.length).2.n) - 1 := by
    rw [hb5, hb4]
    exact hmask2
  obtain ⟨hp1, hp2, hp3, hp4⟩ :=
    payloadFuel_spec kb
      (decide ((embedFlags encrypt random_start &&& 0xFF) &&& FLAG_ENCRYPTED ≠ 0
        ∧ kb ≠ []))
      (embedData payload kb encrypt).length
      ((embedData payload kb encrypt).length + 1) 0 0 []
      (((BitStreamReader.start stream off nlsb).read HEADER_LEN_FIXED).2.read
        meta_json.length).2
      (embedData payload kb encrypt) (bitsToBytes rest)
      (by omega) (by omega) htot3 hmask3 (by omega) hread2
  have hcontent : (if decide ((embedFlags encrypt random_start &&& 0xFF) &&&
        FLAG_ENCRYPTED ≠ 0 ∧ kb ≠ []) = true
      then decryptChunkAt kb 0 (embedData payload kb encrypt)
      else embedData payload kb encrypt) = payload := by
    cases encrypt with
    | false =>
      rw [if_neg (by simp [embedFlags_bit0])]
      rfl
    | true =>
      by_cases hk : kb = []
      · subst hk
        rw [if_neg (by simp)]
        simp [embedData, vigenere256_encrypt]
      · rw [if_pos (by simp [embedFlags_bit0, hk])]
        show decryptChunkAt kb 0 (vigenere256_encrypt payload kb) = payload
        exact decryptChunkAt_encrypt payload kb hk hp
  have hcrcok : crc32Incr 0 (embedData payload kb encrypt) &&& 0xFFFFFFFF =
      crc32 (embedData payload kb encrypt) := crc32_and_mask _
  simp only [candidateResult]
  rw [hfix]
  rw [if_neg (by push_neg; exact ⟨hFlen, hFtake, hFget7⟩)]
  rw [hmle, hple, hcrceq, hFget6]
  rw [hmeta]
  rw [if_neg (show ¬ (meta_json.length ≠ meta_json.length) from fun hc => hc rfl)]
  rw [if_neg (show ¬ ¬ (jsonOK meta_json = true) from fun hc => hc hjson)]
  rw [hp1, hp2, hp3, hp4]
  rw [if_neg (show ¬ (true = false) from fun hc => Bool.noConfusion hc)]
  rw [if_neg (show ¬ (crc32Incr 0 (embedData payload kb encrypt) &&& 0xFFFFFFFF ≠
    crc32 (embedData payload kb encrypt)) from fun hc => hc hcrcok)]
  rw [List.nil_append, hcontent, hdatalen]

/-! ### Helper lemmas: trial-loop file-system effects -/

theorem fsLookup_remove_self (fs : Fs) (p : List Nat) :
    fsLookup (fsRemove fs p) p = none := by
  have h : (fsRemove fs p).find? (fun e => e.1 = p) = none :=
    List.find?_eq_none.mpr fun e he => by
      simpa using List.of_mem_filter (l := fs) he
  unfold fsLookup
  rw [h]
  rfl

theorem fsLookup_filter_none (fs : Fs) (p : List Nat)
    (q : List Nat × List Nat → Bool) (h : fsLookup fs p = none) :
    fsLookup (fs.filter q) p = none := by
  unfold fsLookup at h ⊢
  rw [Option.map_eq_none'] at h ⊢
  rw [List.find?_eq_none] at h ⊢
  intro e he
  exact h e (List.mem_of_mem_filter he)

theorem applyCand_none (fs : Fs) (o : CandOutcome) (p : List Nat)
    (h : fsLookup fs p = none) (ho : o.isSuccess = false) :
    fsLookup (applyCand fs o).2 p = none := by
  cases o with
  | rejectNoFile => exact h
  | rejectAfterWrite pth ct =>
    show fsLookup (fsRemove (fsWrite fs pth ct) pth) p = none
    by_cases hp : pth = p
    · subst hp
      exact fsLookup_remove_self _ _
    · show fsLookup ((fsWrite fs pth ct).filter fun e => e.1 ≠ pth) p = none
      apply fsLookup_filter_none
      show fsLookup ((pth, ct) :: fs.filter fun e => e.1 ≠ pth) p = none
      unfold fsLookup
      rw [List.find?_cons_of_neg _ (by simpa using hp)]
      exact fsLookup_filter_none fs p _ h
  | success pth ct w => exact absurd ho (by simp [CandOutcome.isSuccess])

theorem extractLoop_cons_of_nonsuccess (jsonOK : List Nat → Bool)
    (resolve : List Nat → List Nat) (stream kb : List Nat) (c : Nat × Nat)
    (rest : List (Nat × Nat)) (fs : Fs)
    (h : (candidateResult jsonOK resolve stream kb c.1 c.2).isSuccess = false) :
    extractLoop jsonOK resolve stream kb (c :: rest) fs =
      extractLoop jsonOK resolve stream kb rest
        (applyCand fs (candidateResult jsonOK resolve stream kb c.1 c.2)).2 := by
  cases ho : candidateResult jsonOK resolve stream kb c.1 c.2 with
  | rejectNoFile => simp [extractLoop, ho, applyCand]
  | rejectAfterWrite pth ct => simp [extractLoop, ho, applyCand]
  | success pth ct w =>
    rw [ho] at h
    simp [CandOutcome.isSuccess] at h

theorem extractLoop_error (jsonOK : List Nat → Bool)
    (resolve : List Nat → List Nat) (stream kb : List Nat) :
    ∀ (cands : List (Nat × Nat)) (fs : Fs),
      (∀ c ∈ cands,
        (candidateResult jsonOK resolve stream kb c.1 c.2).isSuccess = false) →
      (extractLoop jsonOK resolve stream kb cands fs).1 =
        .error "Failed to extract at deterministic offsets. Re-embed and verify the key/options." := by
  intro cands
  induction cands with
  | nil => intro fs _; rfl
  | cons c rest ih =>
    intro fs hall
    rw [extractLoop_cons_of_nonsuccess jsonOK resolve stream kb c rest fs
      (hall c (by simp))]
    exact ih _ fun c' hc' => hall c' (by simp [hc'])

theorem extractLoop_none (jsonOK : List Nat → Bool)
    (resolve : List Nat → List Nat) (stream kb : List Nat) :
    ∀ (cands : List (Nat × Nat)) (fs : Fs) (p : List Nat),
      fsLookup fs p = none →
      (∀ c ∈ cands,
        (candidateResult jsonOK resolve stream kb c.1 c.2).isSuccess = false) →
      fsLookup (extractLoop jsonOK resolve stream kb cands fs).2 p = none := by
  intro cands
  induction cands with
  | nil => intro fs p h _; exact h
  | cons c rest ih =>
    intro fs p h hall
    rw [extractLoop_cons_of_nonsuccess jsonOK resolve stream kb c rest fs
      (hall c (by simp))]
    exact ih _ p (applyCand_none fs _ p h (hall c (by simp)))
      fun c' hc' => hall c' (by simp [hc'])

theorem extractLoop_reject_absent (jsonOK : List Nat → Bool)
    (resolve : List Nat → List Nat) (stream kb : List Nat) :
    ∀ (cands : List (Nat × Nat)) (fs : Fs),
      (∀ c ∈ cands,
        (candidateResult jsonOK resolve stream kb c.1 c.2).isSuccess = false) →
      ∀ c ∈ cands, ∀ pth ct,
        candidateResult jsonOK resolve stream kb c.1 c.2 =
          .rejectAfterWrite pth ct →
        fsLookup (extractLoop jsonOK resolve stream kb cands fs).2 pth =
          none := by
  intro cands
  induction cands with
  | nil => intro fs _ c hc; exact absurd hc (List.not_mem_nil c)
  | cons c0 rest ih =>
    intro fs hall c hc pth ct hcr
    rw [extractLoop_cons_of_nonsuccess jsonOK resolve stream kb c0 rest fs
      (hall c0 (by simp))]
    rcases List.mem_cons.mp hc with rfl | hc'
    · apply extractLoop_none
      · rw [hcr]
        exact fsLookup_remove_self _ _
      · exact fun c' hc' => hall c' (by simp [hc'])
    · exact ih _ (fun c' hc'' => hall c' (by simp [hc''])) c hc' pth ct hcr

theorem fsLookup_write_self (fs : Fs) (p c : List Nat) :
    fsLookup (fsWrite fs p c) p = some c := by
  unfold fsLookup fsWrite
  rw [List.find?_cons_of_pos _ (by simp)]
  rfl

theorem extractLoop_append_nonsuccess (jsonOK : List Nat → Bool)
    (resolve : List Nat → List Nat) (stream kb : List Nat) :
    ∀ (before l : List (Nat × Nat)) (fs : Fs),
      (∀ c ∈ before,
        (candidateResult jsonOK resolve stream kb c.1 c.2).isSuccess = false) →
      ∃ fs', extractLoop jsonOK resolve stream kb (before ++ l) fs =
        extractLoop jsonOK resolve stream kb l fs' := by
  intro before
  induction before with
  | nil => intro l fs _; exact ⟨fs, rfl⟩
  | cons c rest ih =>
    intro l fs hall
    rw [List.cons_append, extractLoop_cons_of_nonsuccess jsonOK resolve stream kb
      c (rest ++ l) fs (hall c (by simp))]
    exact ih l _ fun c' hc' => hall c' (by simp [hc'])

/-- From a successful embed: the regions scan identically on the stego bytes,
the usable stream has the full region capacity, the chosen start offset lies
inside it, and — when `nlsb` divides the message bit count — the low-bit
stream from the start offset begins with exactly the message bits. -/
theorem stego_stream_bits {mp3 payload meta_json kb : List Nat} {seed nlsb : Nat}
    {encrypt random_start : Bool} {st : List Nat}
    (hB : ∀ b ∈ mp3, b < 256)
    (h : embedFile mp3 payload meta_json kb seed nlsb encrypt random_start = .ok st)
    (hdvd : nlsb ∣ (bytesToBits (containerMessage payload meta_json kb nlsb
      encrypt random_start)).length) :
    collectFramesAndRegions st = collectFramesAndRegions mp3 ∧
    (streamOf st (collectFramesAndRegions mp3)).length =
      (((collectFramesAndRegions mp3).map fun r => r.2 - r.1).sum) ∧
    startOffset mp3 seed random_start <
      (((collectFramesAndRegions mp3).map fun r => r.2 - r.1).sum) ∧
    ∃ rest,
      ((streamOf st (collectFramesAndRegions mp3)).drop
          (startOffset mp3 seed random_start)).flatMap
        (fun b => natBits nlsb (b &&& ((1 <<< nlsb) - 1))) =
      bytesToBits (containerMessage payload meta_json kb nlsb encrypt random_start)
        ++ rest := by
  obtain ⟨hn, hdl, hml, hregs, hcap, hst⟩ := embedFile_eq_ok h
  set bitsT := bytesToBits (containerMessage payload meta_json kb nlsb encrypt
    random_start) with hbitsT
  set skipT := (if random_start then randrange seed
    (((collectFramesAndRegions mp3).map fun r => r.2 - r.1).sum) else 0)
    with hskipT
  have hso : startOffset mp3 seed random_start = skipT := rfl
  have hchain : List.Pairwise (fun r r' : Nat × Nat => r.2 ≤ r'.1)
      (collectFramesAndRegions mp3) := collectFuel_chain mp3 _ _
  have hbounds : ∀ r ∈ collectFramesAndRegions mp3,
      r.1 < r.2 ∧ r.2 ≤ mp3.length := by
    intro r hr
    have hb := collectFuel_bounds mp3 (mp3.length + 1) (skipId3v2 mp3) r hr
    exact ⟨hb.2.1, hb.2.2⟩
  have hnodup := usablePositions_nodup _ hchain
  have hplt : ∀ p ∈ usablePositions (collectFramesAndRegions mp3),
      p < mp3.length := by
    intro p hp
    rcases mem_usablePositions.mp hp with ⟨r, hr, h1, h2⟩
    have := hbounds r hr
    omega
  have hPlen : (usablePositions (collectFramesAndRegions mp3)).length =
      (((collectFramesAndRegions mp3).map fun r => r.2 - r.1).sum) :=
    usablePositions_length _
  have hmsgpos : 0 < bitsT.length := by
    rw [hbitsT, bytesToBits_length,
      containerMessage_decomp payload meta_json kb nlsb encrypt random_start,
      List.length_append, fixedHeader_length]
    omega
  have hskiplt : skipT <
      (((collectFramesAndRegions mp3).map fun r => r.2 - r.1).sum) := by
    rcases Nat.lt_or_ge skipT
      ((((collectFramesAndRegions mp3).map fun r => r.2 - r.1).sum)) with hlt | hge
    · exact hlt
    · exfalso
      have hz : (((collectFramesAndRegions mp3).map fun r => r.2 - r.1).sum) -
          skipT = 0 := by omega
      rw [hz, Nat.zero_mul] at hcap
      omega
  have hstlen : st.length = mp3.length := by
    rw [hst]
    exact embedFold_length ..
  have hstab : collectFramesAndRegions st = collectFramesAndRegions mp3 := by
    apply collectFramesAndRegions_stable
    · exact hstlen
    · intro p hp
      rw [hst]
      refine Eq.trans (embedFold_untouched nlsb _ mp3 skipT bitsT p ?_) rfl
      intro hmem
      rcases mem_usablePositions.mp hmem with ⟨r, hr, h1, h2⟩
      rcases hp r hr with h3 | h3 <;> omega
  have hmap : (usablePositions (collectFramesAndRegions mp3)).map
      (fun p => st.getD p 0) =
      ((usablePositions (collectFramesAndRegions mp3)).take skipT).map
        (fun p => mp3.getD p 0) ++
      writeBytesSpec nlsb
        (((usablePositions (collectFramesAndRegions mp3)).drop skipT).map
          (fun p => mp3.getD p 0)) bitsT := by
    have he := embedFold_map nlsb (usablePositions (collectFramesAndRegions mp3))
      mp3 skipT bitsT hnodup hplt
    rw [← he, hst]
    rfl
  have hstream : streamOf st (collectFramesAndRegions mp3) =
      ((usablePositions (collectFramesAndRegions mp3)).take skipT).map
        (fun p => mp3.getD p 0) ++
      writeBytesSpec nlsb
        (((usablePositions (collectFramesAndRegions mp3)).drop skipT).map
          (fun p => mp3.getD p 0)) bitsT := by
    rw [← hmap]
    apply streamOf_eq_map
    intro r hr
    rw [hstlen]
    have := hbounds r hr
    omega
  have htklen : (((usablePositions (collectFramesAndRegions mp3)).take
      skipT).map (fun p => mp3.getD p 0)).length = skipT := by
    rw [List.length_map, List.length_take, hPlen]
    omega
  have hwlen : ∀ (origs bits : List Nat),
      (writeBytesSpec nlsb origs bits).length = origs.length := by
    intro origs
    induction origs with
    | nil => intro bits; rfl
    | cons o os ihw =>
      intro bits
      by_cases hb : bits = []
      · subst hb
        rw [writeBytesSpec_nil_bits]
      · show (if bits = [] then o :: os else _).length = _
        rw [if_neg hb]
        simp only [List.length_cons]
        rw [ihw]
  obtain ⟨rest, hwb⟩ := writeBytesSpec_bits nlsb hn
    (((usablePositions (collectFramesAndRegions mp3)).drop skipT).map
      (fun p => mp3.getD p 0)) bitsT
    hdvd (bytesToBits_mem_lt _)
    (by
      intro o ho
      rcases List.mem_map.mp ho with ⟨p, hp, rfl⟩
      exact getD_lt_of_forall hB p)
    (by
      rw [List.length_map, List.length_drop, hPlen]
      exact hcap)
  refine ⟨hstab, ?_, ?_, rest, ?_⟩
  · rw [hstream, List.length_append, htklen, hwlen, List.length_map,
      List.length_drop, hPlen]
    omega
  · rw [hso]
    exact hskiplt
  · rw [hso, hstream, List.drop_left' htklen, hwb]

/-! ### Claims -/

/-- C9: the scanner's region list is pairwise non-overlapping in order
(`r.2 ≤ r'.1` for earlier `r`), has strictly increasing starts, and every
region satisfies `start < end ≤ buffer length`. -/
theorem C9_theorem (mp3 : List Nat) :
    List.Pairwise (fun r r' : Nat × Nat => r.2 ≤ r'.1) (collectFramesAndRegions mp3) ∧
    List.Pairwise (fun r r' : Nat × Nat => r.1 < r'.1) (collectFramesAndRegions mp3) ∧
    ∀ r ∈ collectFramesAndRegions mp3, r.1 < r.2 ∧ r.2 ≤ mp3.length := by
  have hchain := collectFuel_chain mp3 (mp3.length + 1) (skipId3v2 mp3)
  have hbounds := collectFuel_bounds mp3 (mp3.length + 1) (skipId3v2 mp3)
  refine ⟨hchain, ?_, fun r hr => ⟨(hbounds r hr).2.1, (hbounds r hr).2.2⟩⟩
  refine List.Pairwise.imp_of_mem ?_ hchain
  intro a b ha _ hab
  have := (hbounds a ha).2.1
  omega

/-- C9, witness: on a two-frame demo cover the regions are
`[(13, 24), (37, 48)]`. -/
theorem C9_witness :
    ((13, 24) ∈ collectFramesAndRegions (demoCover 2) ∧ (13 < 24 ∧ 24 ≤ (demoCover 2).length)) ∧
    List.Pairwise (fun r r' : Nat × Nat => r.2 ≤ r'.1)
      (collectFramesAndRegions (demoCover 2)) ∧
    List.Pairwise (fun r r' : Nat × Nat => r.1 < r'.1)
      (collectFramesAndRegions (demoCover 2)) := by
  have h := C9_theorem (demoCover 2)
  exact ⟨⟨by decide, h.2.2 (13, 24) (by decide)⟩, h.1, h.2.1⟩



/-- C6: every accepted frame header has
`frame_len = floor(coef * bitrate_bps / sample_rate) + padding` with `coef`
144 for version 1 and 72 for versions 2/2.5, is at least 24 bytes (smaller
results are rejected), and has side-information length 32 for version-1
multi-channel, 17 for version-1 mono, 17 for version-2/2.5 multi-channel and
9 for version-2/2.5 mono (channel mode 3 is mono). -/
theorem C6_theorem (mp3 : List Nat) (off : Nat) (hdr : FrameHeader)
    (h : parseHeaderAt mp3 off = some hdr) :
    ∃ version br_kbps sr,
      versionOfBits ((mp3.getD (off + 1) 0 >>> 3) &&& 0x03) = some version ∧
      (bitrateTable version).getD ((mp3.getD (off + 2) 0 >>> 4) &&& 0x0F) none =
        some br_kbps ∧
      (srTable version).getD ((mp3.getD (off + 2) 0 >>> 2) &&& 0x03) none = some sr ∧
      hdr.frame_len = (if version = .v1 then 144 else 72) * (br_kbps * 1000) / sr
        + ((mp3.getD (off + 2) 0 >>> 1) &&& 0x01) ∧
      24 ≤ hdr.frame_len ∧
      hdr.side_len = (if version = .v1 then
          (if (mp3.getD (off + 3) 0 >>> 6) &&& 0x03 = 3 then 17 else 32)
        else (if (mp3.getD (off + 3) 0 >>> 6) &&& 0x03 = 3 then 9 else 17)) := by
  simp only [parseHeaderAt] at h
  repeat' split at h
  all_goals first
    | exact Option.noConfusion h
    | (rcases Option.some_injective _ h with rfl
       dsimp only
       refine ⟨_, _, _, by assumption, by assumption, by assumption, ?_, by omega, ?_⟩
       · (repeat' split) <;> first | rfl | exact absurd (by assumption) (by assumption)
       · (repeat' split) <;> first | rfl | exact absurd (by assumption) (by assumption))

/-- C6, witness: the version-2 mono header `FF F3 14 C0` parses to
`frame_len = 72 * 8000 / 24000 + 0 = 24`, `side_len = 9`. -/
theorem C6_witness :
    parseHeaderAt [0xFF, 0xF3, 0x14, 0xC0] 0 = some ⟨24, 9⟩ ∧
    (∃ version br_kbps sr,
      versionOfBits ((([0xFF, 0xF3, 0x14, 0xC0] : List Nat).getD 1 0 >>> 3) &&& 0x03) =
        some version ∧
      (bitrateTable version).getD
        ((([0xFF, 0xF3, 0x14, 0xC0] : List Nat).getD 2 0 >>> 4) &&& 0x0F) none =
        some br_kbps ∧
      (srTable version).getD
        ((([0xFF, 0xF3, 0x14, 0xC0] : List Nat).getD 2 0 >>> 2) &&& 0x03) none =
        some sr ∧
      (FrameHeader.mk 24 9).frame_len =
        (if version = .v1 then 144 else 72) * (br_kbps * 1000) / sr
          + ((([0xFF, 0xF3, 0x14, 0xC0] : List Nat).getD 2 0 >>> 1) &&& 0x01) ∧
      24 ≤ (FrameHeader.mk 24 9).frame_len ∧
      (FrameHeader.mk 24 9).side_len = (if version = .v1 then
          (if (([0xFF, 0xF3, 0x14, 0xC0] : List Nat).getD 3 0 >>> 6) &&& 0x03 = 3
            then 17 else 32)
        else (if (([0xFF, 0xF3, 0x14, 0xC0] : List Nat).getD 3 0 >>> 6) &&& 0x03 = 3
            then 9 else 17))) := by
  have h : parseHeaderAt [0xFF, 0xF3, 0x14, 0xC0] 0 = some ⟨24, 9⟩ := by rfl
  exact ⟨h, C6_theorem [0xFF, 0xF3, 0x14, 0xC0] 0 ⟨24, 9⟩ h⟩

/-- C2: with a valid `nlsb`, representable lengths and a scannable cover,
embed fails with a capacity error carrying exactly the required and available
bit counts precisely when
`(total_usable_bytes - start_offset) * nlsb < message_bit_length`; a message
whose bit length equals (or is below) the available capacity embeds
successfully.  (In the pure model an error case produces no output buffer.) -/
theorem C2_theorem (mp3 payload meta_json kb : List Nat) (seed nlsb : Nat)
    (encrypt random_start : Bool)
    (hn : 1 ≤ nlsb ∧ nlsb ≤ 4)
    (hd : (embedData payload kb encrypt).length < 2 ^ 32)
    (hm : meta_json.length < 2 ^ 32)
    (hr : collectFramesAndRegions mp3 ≠ []) :
    (embedFile mp3 payload meta_json kb seed nlsb encrypt random_start =
        .error (.insufficientCapacity
          (messageBits payload meta_json kb nlsb encrypt random_start).length
          ((totalUsableBytes mp3 - startOffset mp3 seed random_start) * nlsb)) ↔
      (totalUsableBytes mp3 - startOffset mp3 seed random_start) * nlsb <
        (messageBits payload meta_json kb nlsb encrypt random_start).length) ∧
    ((messageBits payload meta_json kb nlsb encrypt random_start).length ≤
        (totalUsableBytes mp3 - startOffset mp3 seed random_start) * nlsb →
      ∃ st, embedFile mp3 payload meta_json kb seed nlsb encrypt random_start = .ok st) := by
  have hok : ∀ _ : (messageBits payload meta_json kb nlsb encrypt random_start).length ≤
      (totalUsableBytes mp3 - startOffset mp3 seed random_start) * nlsb,
      embedFile mp3 payload meta_json kb seed nlsb encrypt random_start =
        .ok (embedCore mp3 (collectFramesAndRegions mp3)
          (bytesToBits (containerMessage payload meta_json kb nlsb encrypt random_start))
          (if random_start then
            randrange seed (((collectFramesAndRegions mp3).map fun r => r.2 - r.1).sum)
           else 0) nlsb).1 := by
    intro hcap
    refine embedFile_ok_of hn hd hm hr ?_
    simpa [messageBits, totalUsableBytes, startOffset] using hcap
  constructor
  · constructor
    · intro herr
      by_contra hcap
      push_neg at hcap
      rw [hok hcap] at herr
      exact Except.noConfusion herr
    · intro hcap
      simp only [embedFile]
      rw [if_neg (by omega), if_neg (by omega), if_neg hr,
        if_pos (by simpa [messageBits, totalUsableBytes, startOffset] using hcap)]
      simp [messageBits, totalUsableBytes, startOffset]
  · intro hcap
    exact ⟨_, hok hcap⟩

set_option maxRecDepth 100000 in
/-- C2, witness: six demo frames give 264 usable bits at `nlsb = 4`; a 9-byte
payload with 2-byte metadata makes the message exactly 264 bits, which embeds
successfully. -/
theorem C2_witness :
    (1 ≤ 4 ∧ 4 ≤ 4) ∧
    (embedData (List.replicate 9 5) [] false).length < 2 ^ 32 ∧
    ([123, 125] : List Nat).length < 2 ^ 32 ∧
    collectFramesAndRegions (demoCover 6) ≠ [] ∧
    (messageBits (List.replicate 9 5) [123, 125] [] 4 false false).length =
      (totalUsableBytes (demoCover 6) - startOffset (demoCover 6) 0 false) * 4 ∧
    ∃ st, embedFile (demoCover 6) (List.replicate 9 5) [123, 125] [] 0 4 false false =
      .ok st := by
  have h := C2_theorem (demoCover 6) (List.replicate 9 5) [123, 125] [] 0 4 false false
    (by omega) (by decide) (by decide) (by decide)
  exact ⟨by omega, by decide, by decide, by decide, by decide, h.2 (by decide)⟩

/-- C3: a successful embed yields a stego buffer of the same length as the
cover in which every byte outside all scanner regions is unchanged, and for
every position the bits above the low `nlsb` are unchanged — only low-order
bits of usable bytes may differ (frame headers and side information lie
outside all regions by construction of the region list). -/
theorem C3_theorem {mp3 payload meta_json kb : List Nat} {seed nlsb : Nat}
    {encrypt random_start : Bool} {st : List Nat}
    (hB : ∀ b ∈ mp3, b < 256)
    (h : embedFile mp3 payload meta_json kb seed nlsb encrypt random_start = .ok st) :
    st.length = mp3.length ∧
    (∀ q, (∀ r ∈ collectFramesAndRegions mp3, q < r.1 ∨ r.2 ≤ q) →
      st.getD q 0 = mp3.getD q 0) ∧
    ∀ q, st.getD q 0 >>> nlsb = mp3.getD q 0 >>> nlsb := by
  obtain ⟨hn, -, -, -, -, hst⟩ := embedFile_eq_ok h
  subst hst
  refine ⟨embedFold_length .., ?_, ?_⟩
  · intro q hq
    apply embedFold_untouched
    intro hmem
    rcases mem_usablePositions.mp hmem with ⟨r, hr', h1, h2⟩
    rcases hq r hr' with h3 | h3 <;> omega
  · exact embedFold_shift nlsb hn _ mp3 _ _ hB
      (bytesToBits_mem_lt (containerMessage payload meta_json kb nlsb encrypt random_start))

set_option maxRecDepth 100000 in
/-- C3, witness: a concrete embed into twelve demo frames keeps the length,
keeps byte 0 (outside every region), and keeps the high bits of byte 13 (the
first usable byte). -/
theorem C3_witness :
    (∀ b ∈ demoCover 12, b < 256) ∧
    (embedFile (demoCover 12) [1, 2, 3, 250] [123, 125] [104, 117, 110] 7 2 true false).isOk
      = true ∧
    ∀ st, embedFile (demoCover 12) [1, 2, 3, 250] [123, 125] [104, 117, 110] 7 2 true false
        = .ok st →
      st.length = (demoCover 12).length ∧
      st.getD 0 0 = (demoCover 12).getD 0 0 ∧
      st.getD 13 0 >>> 2 = (demoCover 12).getD 13 0 >>> 2 := by
  refine ⟨by decide, by decide, ?_⟩
  intro st hst
  have h := C3_theorem (by decide) hst
  exact ⟨h.1, h.2.1 0 (by decide), h.2.2 13⟩

set_option maxRecDepth 100000 in
/-- C7, counterexample: embedding an *empty* payload succeeds — there is no
empty-payload validation in `embed_file`. -/
theorem C7_counterexample :
    (embedFile (demoCover 5) [] [123, 125] [] 0 4 false false).isOk = true := by
  decide

/-- C7, amended: embed raises the `nlsb` validation error (before any output
is produced) when `nlsb ∉ {1,2,3,4}`; an empty payload is not validated and
embeds successfully when the other conditions hold. -/
theorem C7_theorem (mp3 payload meta_json kb : List Nat) (seed nlsb : Nat)
    (encrypt random_start : Bool) (h : nlsb < 1 ∨ nlsb > 4) :
    embedFile mp3 payload meta_json kb seed nlsb encrypt random_start =
      .error .invalidNlsb := by
  simp only [embedFile]
  rw [if_pos h]

set_option maxRecDepth 100000 in
/-- C7, witness: `nlsb = 0` is rejected with the validation error. -/
theorem C7_witness :
    ((0 : Nat) < 1 ∨ (0 : Nat) > 4) ∧
    embedFile (demoCover 1) [5] [123, 125] [] 0 0 false false = .error .invalidNlsb :=
  ⟨Or.inl (by omega),
   C7_theorem (demoCover 1) [5] [123, 125] [] 0 0 false false (Or.inl (by omega))⟩

/-- C10: the bit reader's `read` is total, never indexes outside the stream,
and returns exactly `min k (available_bits / 8)` bytes — at most `k`, and
fewer than `k` only when the stream is exhausted; consequently a trial on a
stream too short to furnish the 22 fixed header bytes is cleanly rejected. -/
theorem C10_theorem (stream : List Nat) (off n k : Nat) :
    ((BitStreamReader.start stream off n).read k).1.length =
      min k ((stream.length - off) * n / 8) ∧
    ∀ (jsonOK : List Nat → Bool) (resolve : List Nat → List Nat) (kb : List Nat),
      (stream.length - off) * n / 8 < HEADER_LEN_FIXED →
      candidateResult jsonOK resolve stream kb n off = .rejectNoFile := by
  have hlen : (readerBits (BitStreamReader.start stream off n)).length =
      (stream.length - off) * n := by
    rw [readerBits_start, flatMap_natBits_length, List.length_drop]
  have h1 : ((BitStreamReader.start stream off n).read k).1.length =
      min k ((stream.length - off) * n / 8) := by
    have hspec := read_spec (BitStreamReader.start stream off n) k rfl rfl
    rw [hspec.1, List.length_take, bitsToBytes_length, hlen]
  refine ⟨h1, ?_⟩
  intro jsonOK resolve kb hshort
  have h2 : ((BitStreamReader.start stream off n).read HEADER_LEN_FIXED).1.length =
      min HEADER_LEN_FIXED ((stream.length - off) * n / 8) := by
    have hspec := read_spec (BitStreamReader.start stream off n) HEADER_LEN_FIXED rfl rfl
    rw [hspec.1, List.length_take, bitsToBytes_length, hlen]
  simp only [candidateResult]
  rw [if_pos]
  exact Or.inl (by rw [h2]; simp only [HEADER_LEN_FIXED] at hshort ⊢; omega)

/-- C10, witness: a 3-byte stream at `nlsb = 1` yields 0 bytes for a 22-byte
request, and the candidate is rejected without error. -/
theorem C10_witness :
    ((BitStreamReader.start [0, 0, 0] 0 1).read 22).1.length =
      min 22 ((([0, 0, 0] : List Nat).length - 0) * 1 / 8) ∧
    (([0, 0, 0] : List Nat).length - 0) * 1 / 8 < HEADER_LEN_FIXED ∧
    candidateResult (fun _ => true) (fun m => m) [0, 0, 0] [] 1 0 = .rejectNoFile := by
  have h := C10_theorem [0, 0, 0] 0 1 22
  exact ⟨h.1, by decide, h.2 (fun _ => true) (fun m => m) [] (by decide)⟩

/-- C4, counterexample: `ExtendedVigenereCipher.encrypt` raises `ValueError`
on the empty key instead of returning the data unchanged, so the empty-key
identity does not hold for both exposed cipher directions. -/
theorem C4_counterexample :
    ExtendedVigenereCipher.encrypt [0] [] = .error "Key tidak boleh kosong" ∧
    ExtendedVigenereCipher.encrypt [0] [] ≠ .ok [0] ∧
    ExtendedVigenereCipher.decrypt [0] [] ≠ .ok [0] :=
  ⟨rfl, fun h => Except.noConfusion h, fun h => Except.noConfusion h⟩

/-- C4, amended: for every byte sequence and non-empty key,
`decrypt (encrypt data key) key = data` both through the
`ExtendedVigenereCipher` class and through the pure byte transform used by
the codec; the module-level `_vigenere256_encrypt` is the identity on the
empty key, while `ExtendedVigenereCipher` rejects the empty key with a
`ValueError`. -/
theorem C4_theorem (data kb : List Nat) (hk : kb ≠ []) (hd : ∀ b ∈ data, b < 256) :
    (∃ enc, ExtendedVigenereCipher.encrypt data kb = .ok enc ∧
      ExtendedVigenereCipher.decrypt enc kb = .ok data) ∧
    vigenere256_decrypt (vigenere256_encrypt data kb) kb = data ∧
    vigenere256_encrypt data [] = data ∧
    ExtendedVigenereCipher.encrypt data [] = .error "Key tidak boleh kosong" := by
  have hcore : vigenere256_decrypt (vigenere256_encrypt data kb) kb = data := by
    rw [vigenere256_decrypt_eq_chunk]
    exact decryptChunkAt_encrypt data kb hk hd
  refine ⟨⟨vigenere256_encrypt data kb, ?_, ?_⟩, hcore, ?_, ?_⟩
  · unfold ExtendedVigenereCipher.encrypt vigenere256_encrypt
    rw [if_neg hk, if_neg hk]
  · unfold ExtendedVigenereCipher.decrypt
    rw [if_neg hk, hcore]
  · unfold vigenere256_encrypt
    rw [if_pos rfl]
  · unfold ExtendedVigenereCipher.encrypt
    rw [if_pos rfl]

/-- C4, witness at concrete data `[5, 200]`, key bytes `[3]`. -/
theorem C4_witness :
    ([3] : List Nat) ≠ [] ∧ (∀ b ∈ [5, 200], b < 256) ∧
    ((∃ enc, ExtendedVigenereCipher.encrypt [5, 200] [3] = .ok enc ∧
      ExtendedVigenereCipher.decrypt enc [3] = .ok [5, 200]) ∧
    vigenere256_decrypt (vigenere256_encrypt [5, 200] [3]) [3] = [5, 200] ∧
    vigenere256_encrypt [5, 200] [] = [5, 200] ∧
    ExtendedVigenereCipher.encrypt [5, 200] [] = .error "Key tidak boleh kosong") :=
  ⟨by decide, by decide, C4_theorem [5, 200] [3] (by decide) (by decide)⟩

/-- C5: decrypting chunk-by-chunk with the key indexed by the payload's
absolute byte offset equals decrypting the whole payload at once, for every
partition into chunks; hence the extractor's chunked decryption inverts the
embedder's whole-buffer encryption regardless of chunk boundaries. -/
theorem C5_theorem (kb : List Nat) (hk : kb ≠ []) (chunks : List (List Nat))
    (payload : List Nat) (hp : ∀ b ∈ payload, b < 256) :
    decryptChunksFrom kb 0 chunks = vigenere256_decrypt chunks.flatten kb ∧
    (chunks.flatten = vigenere256_encrypt payload kb →
      decryptChunksFrom kb 0 chunks = payload) := by
  have h1 : decryptChunksFrom kb 0 chunks = vigenere256_decrypt chunks.flatten kb := by
    rw [decryptChunksFrom_eq, vigenere256_decrypt_eq_chunk]
  refine ⟨h1, fun henc => ?_⟩
  rw [decryptChunksFrom_eq, henc]
  exact decryptChunkAt_encrypt payload kb hk hp

/-- C5, witness: payload `[3, 250, 100]` encrypted with key bytes `[7]` is
`[10, 1, 107]`; decrypting the partition `[[10], [1, 107]]` chunkwise
recovers the payload. -/
theorem C5_witness :
    ([7] : List Nat) ≠ [] ∧ (∀ b ∈ [3, 250, 100], b < 256) ∧
    [[10], [1, 107]].flatten = vigenere256_encrypt [3, 250, 100] [7] ∧
    decryptChunksFrom [7] 0 [[10], [1, 107]] = vigenere256_decrypt [10, 1, 107] [7] ∧
    decryptChunksFrom [7] 0 [[10], [1, 107]] = [3, 250, 100] := by
  have h := C5_theorem [7] (by decide) [[10], [1, 107]] [3, 250, 100] (by decide)
  exact ⟨by decide, by decide, by decide, h.1, h.2 (by decide)⟩

/-- C8: the trial order is the 4 bit widths times the 2 candidate offsets;
a candidate whose payload read completes but whose checksum mismatches is a
`rejectAfterWrite`: its partially written output file is deleted and the loop
advances to the next candidate; when every candidate fails to validate the
loop returns the fatal extraction error and no rejected candidate's partial
output file remains in the file system. -/
theorem C8_theorem (jsonOK : List Nat → Bool) (resolve : List Nat → List Nat)
    (mp3 kb : List Nat) (seed : Nat) (fs : Fs)
    (hregs : collectFramesAndRegions mp3 ≠ [])
    (hstream : (streamOf mp3 (collectFramesAndRegions mp3)).length ≠ 0) :
    extractFile jsonOK resolve mp3 kb seed fs =
      extractLoop jsonOK resolve (streamOf mp3 (collectFramesAndRegions mp3)) kb
        (candList (randrange seed
          (streamOf mp3 (collectFramesAndRegions mp3)).length)) fs ∧
    (∀ r, candList r =
      [(1, 0), (1, r), (2, 0), (2, r), (3, 0), (3, r), (4, 0), (4, r)]) ∧
    (∀ (stream' kb' : List Nat) (c : Nat × Nat) (rest : List (Nat × Nat))
      (fs' : Fs) (pth ct : List Nat),
      candidateResult jsonOK resolve stream' kb' c.1 c.2 =
        .rejectAfterWrite pth ct →
      extractLoop jsonOK resolve stream' kb' (c :: rest) fs' =
        extractLoop jsonOK resolve stream' kb' rest
          (fsRemove (fsWrite fs' pth ct) pth) ∧
      fsLookup (fsRemove (fsWrite fs' pth ct) pth) pth = none) ∧
    (∀ (cands : List (Nat × Nat)) (fs' : Fs),
      (∀ c ∈ cands, (candidateResult jsonOK resolve
        (streamOf mp3 (collectFramesAndRegions mp3)) kb c.1 c.2).isSuccess =
          false) →
      (extractLoop jsonOK resolve (streamOf mp3 (collectFramesAndRegions mp3))
          kb cands fs').1 =
        .error "Failed to extract at deterministic offsets. Re-embed and verify the key/options." ∧
      ∀ c ∈ cands, ∀ pth ct,
        candidateResult jsonOK resolve
            (streamOf mp3 (collectFramesAndRegions mp3)) kb c.1 c.2 =
          .rejectAfterWrite pth ct →
        fsLookup (extractLoop jsonOK resolve
            (streamOf mp3 (collectFramesAndRegions mp3)) kb cands fs').2 pth =
          none) := by
  refine ⟨?_, fun r => rfl, ?_, ?_⟩
  · simp only [extractFile]
    rw [if_neg hregs, if_neg hstream]
  · intro stream' kb' c rest fs' pth ct hcr
    constructor
    · rw [extractLoop_cons_of_nonsuccess jsonOK resolve stream' kb' c rest fs'
        (by rw [hcr]; rfl)]
      rw [hcr]
      rfl
    · exact fsLookup_remove_self _ _
  · intro cands fs' hall
    exact ⟨extractLoop_error jsonOK resolve _ kb cands fs' hall,
      fun c hc pth ct hcr =>
        extractLoop_reject_absent jsonOK resolve _ kb cands fs' hall c hc pth
          ct hcr⟩

set_option maxRecDepth 1000000 in
/-- C8, witness: on the `nlsb = 3` demo stego, candidate `(3, 0)` completes
its payload read but fails the checksum (`rejectAfterWrite` of path
`[123, 125]` with the corrupted content `[1, 2, 3, 249]`), every candidate
fails to validate, the loop ends in the fatal error, and the rejected
candidate's output path is absent from the final file system. -/
theorem C8_witness :
    collectFramesAndRegions demoStego3 ≠ [] ∧
    demoStream3.length ≠ 0 ∧
    candidateResult (fun _ => true) id demoStream3 [104, 117, 110] 3 0 =
      .rejectAfterWrite [123, 125] [1, 2, 3, 249] ∧
    (extractFile (fun _ => true) id demoStego3 [104, 117, 110] 7 []).1 =
      .error "Failed to extract at deterministic offsets. Re-embed and verify the key/options." ∧
    fsLookup
      (extractFile (fun _ => true) id demoStego3 [104, 117, 110] 7 []).2
      [123, 125] = none := by
  obtain ⟨h1, h2, h3, h4⟩ := C8_theorem (fun _ => true) id demoStego3
    [104, 117, 110] 7 [] (by decide) (by decide)
  have hall : ∀ c ∈ candList (randrange 7
      (streamOf demoStego3 (collectFramesAndRegions demoStego3)).length),
      (candidateResult (fun _ => true) id
        (streamOf demoStego3 (collectFramesAndRegions demoStego3))
        [104, 117, 110] c.1 c.2).isSuccess = false := by decide
  obtain ⟨herr, habs⟩ := h4 _ [] hall
  refine ⟨by decide, by decide, by decide, ?_, ?_⟩
  · rw [h1]
    exact herr
  · rw [h1]
    exact habs (3, 0) (by decide) [123, 125] [1, 2, 3, 249] (by decide)

/-- C1, amended: round trip holds when `nlsb` divides the total message bit
count and the matching `(nlsb, start_offset)` candidate is reached in the
trial order (no earlier candidate validates): extraction then returns the
resolved metadata path with the original payload byte count, and the output
file holds exactly the original payload bytes. -/
theorem C1_theorem (jsonOK : List Nat → Bool) (resolve : List Nat → List Nat)
    {mp3 payload meta_json kb : List Nat} {seed nlsb : Nat}
    {encrypt random_start : Bool} {st : List Nat} (fs : Fs)
    (before after : List (Nat × Nat))
    (hB : ∀ b ∈ mp3, b < 256)
    (hp : ∀ b ∈ payload, b < 256)
    (hm : ∀ b ∈ meta_json, b < 256)
    (h : embedFile mp3 payload meta_json kb seed nlsb encrypt random_start = .ok st)
    (hdvd : nlsb ∣
      (messageBits payload meta_json kb nlsb encrypt random_start).length)
    (hjson : jsonOK meta_json = true)
    (horder : candList (randrange seed
        (streamOf st (collectFramesAndRegions st)).length) =
      before ++ (nlsb, startOffset mp3 seed random_start) :: after)
    (hbefore : ∀ c ∈ before, (candidateResult jsonOK resolve
      (streamOf st (collectFramesAndRegions st)) kb c.1 c.2).isSuccess = false) :
    (extractFile jsonOK resolve st kb seed fs).1 =
      .ok (resolve meta_json, payload.length) ∧
    fsLookup (extractFile jsonOK resolve st kb seed fs).2 (resolve meta_json) =
      some payload := by
  obtain ⟨hn, hdl, hml, hregs, hcap, hst⟩ := embedFile_eq_ok h
  obtain ⟨hstab, hslen, hskiplt, hbits⟩ := stego_stream_bits hB h hdvd
  have hsucc := candidateResult_success jsonOK resolve payload meta_json kb
    (streamOf st (collectFramesAndRegions st)) nlsb
    (startOffset mp3 seed random_start) encrypt random_start hn hp hm
    (by rw [← embedData_length payload kb encrypt]; exact hdl) hml hjson
    (by rw [hstab]; exact hbits)
  have hregs' : collectFramesAndRegions st ≠ [] := by
    rw [hstab]
    exact hregs
  have hstream0 : (streamOf st (collectFramesAndRegions st)).length ≠ 0 := by
    rw [hstab, hslen]
    omega
  have hfeq : extractFile jsonOK resolve st kb seed fs =
      extractLoop jsonOK resolve (streamOf st (collectFramesAndRegions st)) kb
        (candList (randrange seed
          (streamOf st (collectFramesAndRegions st)).length)) fs := by
    simp only [extractFile]
    rw [if_neg hregs', if_neg hstream0]
  obtain ⟨fs', hloop⟩ := extractLoop_append_nonsuccess jsonOK resolve
    (streamOf st (collectFramesAndRegions st)) kb before
    ((nlsb, startOffset mp3 seed random_start) :: after) fs hbefore
  have hhead : extractLoop jsonOK resolve
      (streamOf st (collectFramesAndRegions st)) kb
      ((nlsb, startOffset mp3 seed random_start) :: after) fs' =
      (.ok (resolve meta_json, payload.length),
        fsWrite fs' (resolve meta_json) payload) := by
    simp only [extractLoop]
    rw [show candidateResult jsonOK resolve
        (streamOf st (collectFramesAndRegions st)) kb
        (nlsb, startOffset mp3 seed random_start).1
        (nlsb, startOffset mp3 seed random_start).2 =
      CandOutcome.success (resolve meta_json) payload payload.length from hsucc]
    rfl
  rw [hfeq, horder, hloop, hhead]
  exact ⟨rfl, fsLookup_write_self fs' (resolve meta_json) payload⟩

set_option maxRecDepth 1000000 in
/-- C1, counterexample: at `nlsb = 3` with a message bit count (224) not
divisible by 3, the embed succeeds (capacity holds) but extraction fails
outright for every candidate — the short final 3-bit group is *not* read
back correctly (the reader zero-pads it to a full group, corrupting the
payload tail and the checksum). -/
theorem C1_counterexample :
    (embedFile (demoCover 12) [1, 2, 3, 250] [123, 125] [104, 117, 110] 7 3
        true false).isOk = true ∧
    (extractFile (fun _ => true) id demoStego3 [104, 117, 110] 7 []).1 =
      .error "Failed to extract at deterministic offsets. Re-embed and verify the key/options." := by
  constructor
  · decide
  · rfl

set_option maxRecDepth 1000000 in
/-- C1, witness: a full concrete round trip at `nlsb = 1` with encryption:
the first candidate `(1, 0)` matches, extraction returns the metadata path
with 2 bytes written, and the output file holds the original payload. -/
theorem C1_witness :
    embedFile (demoCover 20) [9, 200] [123, 125] [104, 117, 110] 5 1 true false
      = .ok demoStego1 ∧
    (extractFile (fun _ => true) id demoStego1 [104, 117, 110] 5 []).1 =
      .ok ([123, 125], 2) ∧
    fsLookup (extractFile (fun _ => true) id demoStego1 [104, 117, 110] 5 []).2
      [123, 125] = some [9, 200] := by
  have hst : embedFile (demoCover 20) [9, 200] [123, 125] [104, 117, 110] 5 1
      true false = .ok demoStego1 := rfl
  have hB : ∀ b ∈ demoCover 20, b < 256 := by decide
  have hpp : ∀ b ∈ [9, 200], b < 256 := by decide
  have hmm : ∀ b ∈ [123, 125], b < 256 := by decide
  have ho : candList (randrange 5
      (streamOf demoStego1 (collectFramesAndRegions demoStego1)).length) =
    [] ++ (1, startOffset (demoCover 20) 5 false) ::
      [(1, 5), (2, 0), (2, 5), (3, 0), (3, 5), (4, 0), (4, 5)] := by decide
  have hb : ∀ c ∈ ([] : List (Nat × Nat)), (candidateResult (fun _ => true) id
      (streamOf demoStego1 (collectFramesAndRegions demoStego1)) [104, 117, 110]
      c.1 c.2).isSuccess = false := fun c hc => absurd hc (List.not_mem_nil c)
  have h := C1_theorem (fun _ => true) id [] []
    [(1, 5), (2, 0), (2, 5), (3, 0), (3, 5), (4, 0), (4, 5)]
    hB hpp hmm hst (Nat.one_dvd _) rfl ho hb
  exact ⟨hst, h.1, h.2⟩

end Stegano
